import Mathlib

/-!
# Verification of the Swiss-table dict implementations

Shallow embedding of the three C implementations in this repository:

* `Objects/dictobject.c` — the ordered dict: slot-linear probing over a
  byte control array, an intrusive doubly-linked insertion-order list
  (modelled with slot indices in place of entry pointers), insert, lookup,
  delete, resize, iterators, dealloc.
* `Objects/swissdictobject.c` — the 8-slot-group variant (`uint64_t`
  control words, modelled byte by byte), no deletion, no linked list.
* `Objects/swissdictobject_simple.c` — the 16-slot-group SIMD variant
  (groups of 16 control bytes with match/empty/available masks), no
  deletion, no linked list.

Keys and values are modelled as `Nat` (object identity = value equality;
`NULL` pointers become `none`/defaults).  The host hash function
`PyObject_Hash` is an arbitrary parameter `hf : Nat → Nat` (hashing is
modelled as total; `Py_hash_t` is modelled as a natural, and C's
`hash & (capacity - 1)` is modelled as `hash % capacity`, which agrees
with the source for the power-of-two capacities the code maintains — see
`land_two_pow_sub_one_eq_mod` below).  Reference-count traffic is
modelled as explicit effect traces (`RefEff`), allocation failure as
explicit boolean oracles where a claim depends on it.
-/

set_option autoImplicit false

namespace SwissVerify

/-- `SWISS_EMPTY = 0x80` from all three C files. -/
def SWISS_EMPTY : Nat := 128

/-- `SWISS_DELETED = 0xFE` from all three C files. -/
def SWISS_DELETED : Nat := 254

/-- Reference-count effect: one `Py_INCREF` (`acq`) or `Py_DECREF`/`Py_XDECREF`
(`rel`) on the object with the given identity. -/
inductive RefEff where
  | acq (obj : Nat)
  | rel (obj : Nat)
deriving Repr, DecidableEq

/-! ## `Objects/dictobject.c`: the ordered dict -/

/-- `DictEntry`: `{key, value, prev, next}`.  `key = none` models a NULL
key pointer (slot not occupied); `value` is meaningless then (C keeps a
NULL pointer, we keep `0`).  `prev`/`next` are the intrusive
insertion-order list links; the C stores `DictEntry *` pointers into the
entries array, which we model as slot indices (`&mp->entries[i]` ↔ `i`,
`NULL` ↔ `none`). -/
structure DictEntry where
  key : Option Nat := none
  value : Nat := 0
  prev : Option Nat := none
  next : Option Nat := none
deriving Repr, DecidableEq, Inhabited

/-- `PyDictObject`: capacity, used, deleted, the entries array, the
control byte array, and the insertion-order list head/tail (slot
indices). -/
structure Dict where
  capacity : Nat
  used : Nat
  deleted : Nat
  entries : List DictEntry
  ctrl : List Nat
  head : Option Nat
  tail : Option Nat
deriving Repr, DecidableEq

/-- Read `mp->entries[i]` (out-of-range reads return the all-default entry;
they do not occur in reachable states). -/
def getEntry (d : Dict) (i : Nat) : DictEntry := d.entries.getD i {}

/-- Read `mp->control_bytes[i]`. -/
def getCtrl (d : Dict) (i : Nat) : Nat := d.ctrl.getD i 0

/-- Write `mp->entries[i] = e`. -/
def setEntry (d : Dict) (i : Nat) (e : DictEntry) : Dict :=
  { d with entries := d.entries.set i e }

/-- Write `mp->control_bytes[i] = c`. -/
def setCtrl (d : Dict) (i c : Nat) : Dict :=
  { d with ctrl := d.ctrl.set i c }

/-- `dict_new`: capacity `SWISS_MIN_CAPACITY = 8`, zeroed entries
(`calloc`), control bytes all `SWISS_EMPTY` (`memset`), empty list. -/
def dict_new : Dict :=
  { capacity := 8, used := 0, deleted := 0,
    entries := List.replicate 8 {}, ctrl := List.replicate 8 SWISS_EMPTY,
    head := none, tail := none }

/-- `swiss_hash_to_ctrl`: low 7 bits of the hash; the reserved-marker
remap (`h ^= 0x42` when `h` equals `SWISS_EMPTY` or `SWISS_DELETED`) is
kept although it can never fire, since `hash & 0x7F ≤ 0x7F < 0x80`. -/
def swiss_hash_to_ctrl (hash : Nat) : Nat :=
  let h := hash % 128
  if h = SWISS_EMPTY ∨ h = SWISS_DELETED then h ^^^ 66 else h

/-- The loop body of `swiss_probe`: at most `fuel` further slots are
examined, starting at slot `i`.  Returns `some (i, true)` on a key match
(control byte equals `c`, the slot's key pointer is non-NULL and
compares equal to `k`), `some (i, false)` at the first `SWISS_EMPTY`
byte, and `none` when `capacity` probes are exhausted (C returns `-1`,
"table full"). -/
def probeLoop (d : Dict) (c k : Nat) : Nat → Nat → Option (Nat × Bool)
  | 0, _ => none
  | fuel + 1, i =>
    if getCtrl d i = c ∧ (getEntry d i).key = some k then some (i, true)
    else if getCtrl d i = SWISS_EMPTY then some (i, false)
    else probeLoop d c k fuel ((i + 1) % d.capacity)

/-- `swiss_probe`: linear probing from `hash & (capacity-1)`, at most
`capacity` probes. -/
def swiss_probe (d : Dict) (hash c k : Nat) : Option (Nat × Bool) :=
  probeLoop d c k d.capacity (hash % d.capacity)

/-- `dict_lookup`: hash, probe, return the found slot's value (a borrowed
reference — no refcount effect). -/
def dict_lookup (hf : Nat → Nat) (d : Dict) (k : Nat) : Option Nat :=
  match swiss_probe d (hf k) (swiss_hash_to_ctrl (hf k)) k with
  | some (i, true) => some (getEntry d i).value
  | _ => none

/-- `dict_subscript` (`mp_subscript`): `PyDict_GetItem` plus `Py_INCREF`
on the returned value; on miss, `KeyError`.  The first component is the
table the operation leaves behind: the C function performs no writes, so
it is the input table. -/
def dict_subscript (hf : Nat → Nat) (d : Dict) (k : Nat) :
    Dict × Option Nat × List RefEff :=
  match dict_lookup hf d k with
  | some v => (d, some v, [RefEff.acq v])
  | none => (d, none, [])

/-- The reinsertion scan of `dict_resize`: find the first `SWISS_EMPTY`
byte of `ctrl` starting at slot `j`, linear probing (`while (new_ctrl[j]
!= SWISS_EMPTY) j = (j+1) & mask`).  `none` models the C loop never
terminating; it cannot occur in reachable states. -/
def findEmptySlot (ctrl : List Nat) (cap : Nat) : Nat → Nat → Option Nat
  | 0, _ => none
  | fuel + 1, j =>
    if ctrl.getD j 0 = SWISS_EMPTY then some j
    else findEmptySlot ctrl cap fuel ((j + 1) % cap)

/-- One iteration of the rehash loop of `dict_resize`, for old slot `i`:
if the slot has a non-NULL key and a non-`SWISS_DELETED` control byte,
reinsert it into the new arrays at the first empty slot of its probe
sequence (hash recomputed via `PyObject_Hash`).  `prev`/`next` are left
for the rebuild pass. -/
def reinsertStep (hf : Nat → Nat) (old : Dict) (newCap : Nat)
    (acc : List DictEntry × List Nat) (i : Nat) : List DictEntry × List Nat :=
  match (old.entries.getD i {}).key with
  | some k =>
    if old.ctrl.getD i 0 ≠ SWISS_DELETED then
      match findEmptySlot acc.2 newCap newCap (hf k % newCap) with
      | some j =>
        (acc.1.set j { key := some k, value := (old.entries.getD i {}).value },
         acc.2.set j (swiss_hash_to_ctrl (hf k)))
      | none => acc
    else acc
  | none => acc

/-- The rehash loop of `dict_resize`: walk the old table **by ascending
slot index** (`for (i = 0; i < old_capacity; ++i)`), reinserting each
active slot. -/
def reinsertList (hf : Nat → Nat) (old : Dict) (newCap : Nat)
    (is : List Nat) (acc : List DictEntry × List Nat) :
    List DictEntry × List Nat :=
  is.foldl (reinsertStep hf old newCap) acc

/-- One step of the list-rebuild loop of `dict_resize`: scanning slot `i`
of the new entries array; accumulator is `(entries, head, prev)` where
`prev` is the last occupied slot seen so far. -/
def relinkStep (acc : List DictEntry × Option Nat × Option Nat) (i : Nat) :
    List DictEntry × Option Nat × Option Nat :=
  let es := acc.1
  let hd := acc.2.1
  let prev := acc.2.2
  if (es.getD i {}).key.isSome then
    let es1 := es.set i { es.getD i {} with prev := prev, next := none }
    let es2 := match prev with
      | some p => es1.set p { es1.getD p {} with next := some i }
      | none => es1
    (es2, (if prev.isNone then some i else hd), some i)
  else acc

/-- The list-rebuild pass of `dict_resize`: scan the new array by
ascending slot index, chaining the occupied slots; returns the rebuilt
entries plus the new `ma_head`/`ma_tail`. -/
def rebuildList (entries : List DictEntry) (cap : Nat) :
    List DictEntry × Option Nat × Option Nat :=
  (List.range cap).foldl relinkStep (entries, none, none)

/-- `dict_resize`: `new_capacity = old * 2`, raised to `min_capacity` if
still smaller; fresh zeroed entries and all-`SWISS_EMPTY` control bytes;
rehash all active entries by slot order; rebuild the insertion-order
list by new slot order; `deleted` resets to 0, `used` is untouched.
(Allocation is modelled as succeeding; the allocation-failure paths the
claims mention live in the two SwissDict variants.) -/
def dict_resize (hf : Nat → Nat) (d : Dict) (minCap : Nat) : Dict :=
  let newCap := max (d.capacity * 2) minCap
  let (es, cs) := reinsertList hf d newCap (List.range d.capacity)
    (List.replicate newCap {}, List.replicate newCap SWISS_EMPTY)
  let (es2, hd, tl) := rebuildList es newCap
  { capacity := newCap, used := d.used, deleted := 0,
    entries := es2, ctrl := cs, head := hd, tail := tl }

/-- Result of `dict_insert`/`PyDict_SetItem`: `0` or `-1`. -/
inductive SetResult where
  | ok
  | err
deriving Repr, DecidableEq

/-- Result of `dict_delete`/`PyDict_DelItem` and of the SwissDict
`mp_ass_subscript` deletion branch. -/
inductive DelResult where
  | ok
  | keyError
  | notImplementedError
deriving Repr, DecidableEq

/-- The post-resize body of `dict_insert`: hash, probe; overwrite the
value on a match (releasing the old value's share and acquiring the new
one), otherwise place the new entry at the probe's empty slot, set its
control byte, and append the slot to the insertion-order list. -/
def dict_insert_core (hf : Nat → Nat) (d0 : Dict) (k v : Nat) :
    Dict × SetResult × List RefEff :=
  match swiss_probe d0 (hf k) (swiss_hash_to_ctrl (hf k)) k with
  | none => (d0, SetResult.err, [])
  | some (i, true) =>
    (setEntry d0 i { getEntry d0 i with value := v }, SetResult.ok,
     [RefEff.rel (getEntry d0 i).value, RefEff.acq v])
  | some (i, false) =>
    let d1 := setCtrl (setEntry d0 i
      { key := some k, value := v, prev := d0.tail, next := none }) i
      (swiss_hash_to_ctrl (hf k))
    let d2 := match d0.tail with
      | some t => setEntry d1 t { getEntry d1 t with next := some i }
      | none => { d1 with head := some i }
    ({ d2 with tail := some i, used := d2.used + 1 }, SetResult.ok,
     [RefEff.acq k, RefEff.acq v])

/-- `dict_insert`: resize when `(used + deleted) / capacity > 0.875`
(both sides of the C double comparison are exact binary rationals, so
the test is `8 * (used + deleted) > 7 * capacity`); then the hash /
probe / write body. -/
def dict_insert (hf : Nat → Nat) (d : Dict) (k v : Nat) :
    Dict × SetResult × List RefEff :=
  dict_insert_core hf
    (if 8 * (d.used + d.deleted) > 7 * d.capacity
     then dict_resize hf d (d.capacity * 2) else d) k v

/-- `dict_delete`: tombstone-triggered rehash check first
(`used * 2 < capacity && deleted > capacity / 4`); then hash, probe; on
a match unlink the slot from the insertion-order list, release the key
and value shares, clear the entry, tombstone the control byte, and
adjust the counters; otherwise `KeyError`. -/
def dict_delete_core (hf : Nat → Nat) (d0 : Dict) (k : Nat) :
    Dict × DelResult × List RefEff :=
  match swiss_probe d0 (hf k) (swiss_hash_to_ctrl (hf k)) k with
  | some (i, true) =>
    let e := getEntry d0 i
    let d1 := match e.prev with
      | some p => setEntry d0 p { getEntry d0 p with next := e.next }
      | none => { d0 with head := e.next }
    let d2 := match e.next with
      | some n => setEntry d1 n { getEntry d1 n with prev := e.prev }
      | none => { d1 with tail := e.prev }
    let d3 := setCtrl (setEntry d2 i {}) i SWISS_DELETED
    ({ d3 with used := d3.used - 1, deleted := d3.deleted + 1 },
     DelResult.ok, [RefEff.rel (e.key.getD 0), RefEff.rel e.value])
  | _ => (d0, DelResult.keyError, [])

/-- `dict_delete` proper: the tombstone-triggered rehash check first,
then the hash / probe / unlink body. -/
def dict_delete (hf : Nat → Nat) (d : Dict) (k : Nat) :
    Dict × DelResult × List RefEff :=
  dict_delete_core hf
    (if d.used * 2 < d.capacity ∧ d.deleted > d.capacity / 4
     then dict_resize hf d d.capacity else d) k

/-- The operations a table is built from (`new()` then a sequence of
`set`/`del`). -/
inductive DictOp where
  | set (k v : Nat)
  | del (k : Nat)
deriving Repr, DecidableEq

/-- The table after one operation (results and refcount traffic
discarded). -/
def dictStep (hf : Nat → Nat) (d : Dict) : DictOp → Dict
  | DictOp.set k v => (dict_insert hf d k v).1
  | DictOp.del k => (dict_delete hf d k).1

/-- The table built from `new()` by a sequence of operations. -/
def dictRun (hf : Nat → Nat) (ops : List DictOp) : Dict :=
  ops.foldl (dictStep hf) dict_new

/-- The abstract map: `set` binds, `del` unbinds.  `modelRun ops k` is
`some v` exactly when `k` was bound at least once, not deleted after its
last binding, and `v` is the value of the most recent `set` of `k`. -/
def modelStep (m : Nat → Option Nat) : DictOp → Nat → Option Nat
  | DictOp.set k v, x => if x = k then some v else m x
  | DictOp.del k, x => if x = k then none else m x

/-- The abstract map after a sequence of operations. -/
def modelRun (ops : List DictOp) : Nat → Option Nat :=
  ops.foldl modelStep (fun _ => none)

/-- Walk the insertion-order list from a cursor, collecting the `key`
fields of the visited entries.  Fuel bounds the walk (the C walk follows
`next` pointers; in reachable states the list is acyclic and shorter
than the capacity). -/
def walkList (d : Dict) : Nat → Option Nat → List (Option Nat)
  | 0, _ => []
  | _, none => []
  | fuel + 1, some i => (getEntry d i).key :: walkList d fuel (getEntry d i).next

/-- The keys yielded by `dict_iter`/`dictiter_next`, in list order. -/
def keysInOrder (d : Dict) : List (Option Nat) :=
  walkList d d.capacity d.head

/-- `dict_iter`: the iterator's entire state is a cursor initialized to
`ma_head` (the `dict_iterobject` stores the dict pointer and the cursor;
there is no version snapshot — the ordered dict has no version field at
all). -/
def dict_iter (d : Dict) : Option Nat := d.head

/-- `dictiter_next`: yield the cursor's key (a NULL cursor signals end)
and advance the cursor along `next`.  The dict argument is the *live*
table (the C iterator holds a pointer to it).  No modification check of
any kind is performed. -/
def dictiter_next (d : Dict) (cur : Option Nat) : Option Nat × Option Nat :=
  match cur with
  | none => (none, none)
  | some i => ((getEntry d i).key, (getEntry d i).next)

/-- Actions of a deallocation function, in program order. -/
inductive DeallocAct where
  | rel (obj : Nat)
  | freeEntries
  | freeCtrl
deriving Repr, DecidableEq

/-- `dict_dealloc`: frees the entries array and the control byte array.
That is the whole function — no key or value share is released. -/
def dict_dealloc (_d : Dict) : List DeallocAct :=
  [DeallocAct.freeEntries, DeallocAct.freeCtrl]

/-! ## `Objects/swissdictobject.c`: the 8-slot-group variant -/

/-- `SwissDictEntry`: `{key, value, hash}`; `key = none` models NULL. -/
structure SEntry where
  key : Option Nat := none
  value : Nat := 0
  hash : Nat := 0
deriving Repr, DecidableEq, Inhabited

/-- `SwissDictObject` of `swissdictobject.c`.  The `uint64_t` control
words are modelled as a byte list of length `num_groups * 8`; byte `j`
of word `g` (i.e. `(control_words[g] >> (j*8)) & 0xFF`) is `ctrl[g*8+j]`. -/
structure SDict where
  used : Nat
  capacity : Nat
  version : Nat
  entries : List SEntry
  num_groups : Nat
  ctrl : List Nat
deriving Repr, DecidableEq

/-- `swissdict_new` of `swissdictobject.c`: capacity `SWISS_GROUP_SIZE = 8`,
one group, control word `0x8080808080808080`. -/
def sdict_new : SDict :=
  { used := 0, capacity := 8, version := 0,
    entries := List.replicate 8 {}, num_groups := 1,
    ctrl := List.replicate 8 SWISS_EMPTY }

/-- `h1` as computed by `find_entry`/`insert_into_table` of
`swissdictobject.c`: `hash % self->num_groups`. -/
def sdictH1 (hash groups : Nat) : Nat := hash % groups

/-- `h2` as computed by `find_entry`/`insert_into_table` of
`swissdictobject.c`: `(hash >> 8) & SWISS_H2_MASK`. -/
def sdictH2 (hash : Nat) : Nat := (hash >>> 8) % 128

/-- The group order probed by `find_entry`/`insert_into_table` of
`swissdictobject.c`: `group_idx = (h1 + i) % num_groups` for
`i = 0, 1, …, num_groups - 1` — linear probing over groups. -/
def sdictProbeSeq (hash groups : Nat) : List Nat :=
  (List.range groups).map (fun i => (sdictH1 hash groups + i) % groups)

/-- The inner byte loop of `find_entry`: scan bytes `j, j+1, …` of group
`g`.  `some (some s)` = key found at slot `s`; `some none` = hit a
`SWISS_EMPTY` byte (definitive not-found); `none` = group exhausted,
continue probing. -/
def sGroupScan (d : SDict) (k hash h2 g : Nat) : Nat → Nat → Option (Option Nat)
  | 0, _ => none
  | fuel + 1, j =>
    let cb := d.ctrl.getD (g * 8 + j) 0
    if cb = h2 ∧ g * 8 + j < d.capacity ∧
        (d.entries.getD (g * 8 + j) {}).key = some k ∧
        (d.entries.getD (g * 8 + j) {}).hash = hash then
      some (some (g * 8 + j))
    else if cb = SWISS_EMPTY then some none
    else sGroupScan d k hash h2 g fuel (j + 1)

/-- The group loop of `find_entry`, over the probe order `gs`. -/
def sFindLoop (d : SDict) (k hash h2 : Nat) : List Nat → Option Nat
  | [] => none
  | g :: rest =>
    match sGroupScan d k hash h2 g 8 0 with
    | some r => r
    | none => sFindLoop d k hash h2 rest

/-- `find_entry` of `swissdictobject.c`: returns the slot holding `k`, or
`none`.  (The C match condition is `entry->key != NULL && entry->hash ==
hash && PyObject_RichCompareBool(entry->key, key, Py_EQ) == 1`; with
object identity modelled as value equality this is
`key = some k ∧ hash = hash`.) -/
def find_entry (d : SDict) (k hash : Nat) : Option Nat :=
  sFindLoop d k hash (sdictH2 hash) (sdictProbeSeq hash d.num_groups)

/-- The inner byte loop of `insert_into_table` of `swissdictobject.c`:
first byte of group `g` (from offset `j`) that is `SWISS_EMPTY` or
`SWISS_DELETED` with its slot inside the capacity. -/
def sAvailScan (d : SDict) (g : Nat) : Nat → Nat → Option Nat
  | 0, _ => none
  | fuel + 1, j =>
    let cb := d.ctrl.getD (g * 8 + j) 0
    if (cb = SWISS_EMPTY ∨ cb = SWISS_DELETED) ∧ g * 8 + j < d.capacity then
      some (g * 8 + j)
    else sAvailScan d g fuel (j + 1)

/-- `insert_into_table` of `swissdictobject.c`: walk the probe order; at
the first available byte, write the entry and patch the control word
byte to `h2`.  Returns `none` when no space is found (`-1`). -/
def s_insert_into_table (d : SDict) (k v hash : Nat) : Option SDict :=
  let h2 := sdictH2 hash
  let rec go : List Nat → Option SDict
    | [] => none
    | g :: rest =>
      match sAvailScan d g 8 0 with
      | some s =>
        some { d with
          entries := d.entries.set s { key := some k, value := v, hash := hash },
          ctrl := d.ctrl.set s h2 }
      | none => go rest
  go (sdictProbeSeq hash d.num_groups)

/-- The capacity loop shared by both SwissDict resizes:
`new_capacity = start; while (new_capacity < min_size) new_capacity *= 2`,
with fuel (`min_size` doublings always suffice). -/
def growCapLoop : Nat → Nat → Nat → Nat
  | 0, c, _ => c
  | fuel + 1, c, m => if c < m then growCapLoop fuel (c * 2) m else c

/-- `new_capacity` computed from a start (the group size) and `min_size`. -/
def calcNewCapacity (start minSize : Nat) : Nat :=
  growCapLoop minSize start minSize

/-- `swissdict_resize` of `swissdictobject.c`, with the two allocations
(`entries`, `control_words`) as explicit success flags.  On the failure
path the C frees whatever was allocated and restores `self->entries` and
`self->control_words` to the old arrays — but `self->num_groups` keeps
the value assigned for the new table (`new_capacity / 8`).  `capacity`
is assigned only after the allocation check, so it stays old.  On
success new arrays are installed and every old entry with a non-NULL key
is reinserted via `insert_into_table` (entries for which that fails are
dropped). -/
def swissdict_resize (d : SDict) (minSize : Nat) (entriesOk ctrlOk : Bool) :
    SDict × Bool :=
  let newCap := calcNewCapacity 8 minSize
  let numG := newCap / 8
  if entriesOk ∧ ctrlOk then
    let base := { d with
      entries := List.replicate newCap {}, num_groups := numG,
      ctrl := List.replicate (numG * 8) SWISS_EMPTY, capacity := newCap }
    let d2 := (List.range d.capacity).foldl (fun acc i =>
      match (d.entries.getD i {}).key with
      | some k =>
        match s_insert_into_table acc k (d.entries.getD i {}).value
            (d.entries.getD i {}).hash with
        | some acc1 => acc1
        | none => acc
      | none => acc) base
    (d2, true)
  else
    ({ d with num_groups := numG }, false)

/-- `swissdict_dealloc` of `swissdictobject.c`: for every slot by
ascending index, if the key is non-NULL, `Py_DECREF` the key and the
value; then free the entries array and the control words. -/
def swissdict_deallocActs (d : SDict) : List DeallocAct :=
  ((List.range d.capacity).foldr (fun i acc =>
    match d.entries.getD i {} with
    | e =>
      match e.key with
      | some k => DeallocAct.rel k :: DeallocAct.rel e.value :: acc
      | none => acc) [])
  ++ [DeallocAct.freeEntries, DeallocAct.freeCtrl]

/-! ## `Objects/swissdictobject_simple.c`: the 16-slot-group SIMD variant -/

/-- `SwissGroup`: 16 control bytes plus the parallel key/value/hash
arrays of the group. -/
structure SGroup where
  control : List Nat
  keys : List (Option Nat)
  values : List Nat
  hashes : List Nat
deriving Repr, DecidableEq

instance : Inhabited SGroup :=
  ⟨⟨List.replicate 16 SWISS_EMPTY, List.replicate 16 none,
    List.replicate 16 0, List.replicate 16 0⟩⟩

/-- A group with all control bytes `SWISS_EMPTY` and NULL keys. -/
def emptyGroup : SGroup :=
  ⟨List.replicate 16 SWISS_EMPTY, List.replicate 16 none,
   List.replicate 16 0, List.replicate 16 0⟩

/-- `SwissDictObject` of `swissdictobject_simple.c`. -/
structure SimpleDict where
  used : Nat
  capacity : Nat
  version : Nat
  num_groups : Nat
  groups : List SGroup
deriving Repr, DecidableEq

/-- `swissdict_new` of `swissdictobject_simple.c`: one 16-slot group. -/
def simple_new : SimpleDict :=
  { used := 0, capacity := 16, version := 0, num_groups := 1,
    groups := [emptyGroup] }

/-- `find_match_in_group_simd`: bit `j` set iff control byte `j` equals
`h2` (`_mm_cmpeq_epi8` + `_mm_movemask_epi8`). -/
def matchMask (g : SGroup) (h2 : Nat) : Nat :=
  (List.range 16).foldl (fun acc j => if g.control.getD j 0 = h2 then acc + 2 ^ j else acc) 0

/-- `find_empty_in_group_simd`: bit `j` set iff control byte `j` is
`SWISS_EMPTY`. -/
def emptyMask (g : SGroup) : Nat :=
  (List.range 16).foldl (fun acc j => if g.control.getD j 0 = SWISS_EMPTY then acc + 2 ^ j else acc) 0

/-- `find_available_in_group_simd`: bit `j` set iff control byte `j` is
`SWISS_EMPTY` or `SWISS_DELETED`. -/
def availableMask (g : SGroup) : Nat :=
  (List.range 16).foldl (fun acc j =>
    if g.control.getD j 0 = SWISS_EMPTY ∨ g.control.getD j 0 = SWISS_DELETED
    then acc + 2 ^ j else acc) 0

/-- The positions of the set bits of a 16-bit mask in ascending order —
exactly the order the C loops visit them (`__builtin_ctz` of the mask,
then `mask &= mask - 1` clears the lowest set bit). -/
def maskBits (m : Nat) : List Nat :=
  (List.range 16).filter (fun j => m / 2 ^ j % 2 = 1)

/-- The match-processing loop shared by `swissdict_subscript` and the
existing-key scan of `swissdict_ass_sub`: over the match positions in
ascending order, the first position whose key is pointer-equal to `k`
(fast path) or non-NULL with equal cached hash and `Py_EQ`-equal key
(slow path).  Object identity is modelled as value equality, so the fast
path subsumes the slow path; both disjuncts are kept for fidelity. -/
def simpleFindInGroup (g : SGroup) (k hash h2 : Nat) : Option Nat :=
  (maskBits (matchMask g h2)).find? (fun j =>
    (g.keys.getD j none == some k) ||
    ((g.keys.getD j none).isSome && (g.hashes.getD j 0 == hash) &&
     (g.keys.getD j none == some k)))

/-- Result of the simple variant's subscript. -/
inductive SLookupRes where
  | found (v : Nat)
  | keyError
deriving Repr, DecidableEq

/-- The group loop of `swissdict_subscript` of
`swissdictobject_simple.c`, instrumented with the list of group indices
the loop visits.  Groups are visited in ascending order from 0 (the
computed `h1` is never used).  In each group the match mask is processed
first; then `if (empty_mask == 0xFFFF) break;` — the loop leaves early
only when the group is *entirely* empty. -/
def simpleLookupGo (d : SimpleDict) (k hash h2 : Nat) : List Nat → List Nat × SLookupRes
  | [] => ([], SLookupRes.keyError)
  | g :: rest =>
    let grp := d.groups.getD g default
    match simpleFindInGroup grp k hash h2 with
    | some j => ([g], SLookupRes.found (grp.values.getD j 0))
    | none =>
      if emptyMask grp = 65535 then ([g], SLookupRes.keyError)
      else
        let r := simpleLookupGo d k hash h2 rest
        (g :: r.1, r.2)

/-- `swissdict_subscript` of `swissdictobject_simple.c` (with visited
groups): hash, then the group loop; `KeyError` after the loop. -/
def simple_subscript (hf : Nat → Nat) (d : SimpleDict) (k : Nat) :
    List Nat × SLookupRes :=
  simpleLookupGo d k (hf k) ((hf k >>> 8) % 128) (List.range d.num_groups)

/-- The existing-key scan of `swissdict_ass_sub` of
`swissdictobject_simple.c`: all groups in ascending order, *no*
empty-mask early exit (the C loop has none). -/
def simpleFindExisting (d : SimpleDict) (k hash h2 : Nat) : List Nat → Option (Nat × Nat)
  | [] => none
  | g :: rest =>
    match simpleFindInGroup (d.groups.getD g default) k hash h2 with
    | some j => some (g, j)
    | none => simpleFindExisting d k hash h2 rest

/-- `insert_into_table` of `swissdictobject_simple.c`: groups in
ascending order from 0 (`h1` computed but unused); the first group with
a nonzero available mask receives the entry at the lowest available
position. -/
def simpleInsertGo (d : SimpleDict) (h2 k v hash : Nat) : List Nat → Option SimpleDict
  | [] => none
  | g :: rest =>
    let grp := d.groups.getD g default
    let av := availableMask grp
    if av ≠ 0 then
      let pos := (maskBits av).headD 0
      let grp2 : SGroup :=
        { control := grp.control.set pos h2,
          keys := grp.keys.set pos (some k),
          values := grp.values.set pos v,
          hashes := grp.hashes.set pos hash }
      some { d with groups := d.groups.set g grp2 }
    else simpleInsertGo d h2 k v hash rest

def simple_insert_into_table (d : SimpleDict) (k v hash : Nat) : Option SimpleDict :=
  simpleInsertGo d ((hash >>> 8) % 128) k v hash (List.range d.num_groups)

/-- The reinsertion loop of `swissdict_resize` of
`swissdictobject_simple.c`, over (group, slot) pairs of the old table in
ascending order; `none` when some reinsertion fails. -/
def simpleReinsert (old : List SGroup) : SimpleDict → List (Nat × Nat) → Option SimpleDict
  | acc, [] => some acc
  | acc, (g, i) :: rest =>
    let og := old.getD g default
    match og.keys.getD i none with
    | some k =>
      match simple_insert_into_table acc k (og.values.getD i 0) (og.hashes.getD i 0) with
      | some acc1 => simpleReinsert old acc1 rest
      | none => none
    | none => simpleReinsert old acc rest

/-- `swissdict_resize` of `swissdictobject_simple.c`, with the groups
allocation as an explicit success flag.  On allocation failure the C
restores `groups` and `num_groups` (both therefore unchanged; `capacity`
and `used` were not yet touched).  On success, fresh all-empty groups
are installed and every old entry is reinserted; if a reinsertion fails
the old arrays are restored and `capacity = old_num_groups * 16`. -/
def simple_resize (d : SimpleDict) (minSize : Nat) (allocOk : Bool) :
    SimpleDict × Bool :=
  let newCap := calcNewCapacity 16 minSize
  let numG := newCap / 16
  if allocOk then
    let base := { d with
      capacity := newCap, num_groups := numG,
      groups := List.replicate numG emptyGroup }
    match simpleReinsert d.groups base
        ((List.range d.num_groups).flatMap (fun g => (List.range 16).map (fun i => (g, i)))) with
    | some d1 => (d1, true)
    | none => ({ d with capacity := d.num_groups * 16 }, false)
  else (d, false)

/-- Result of `swissdict_ass_sub` of the SwissDict variants. -/
inductive SimpleSetRes where
  | ok
  | memError
  | noSpaceError
  | notImplementedError
deriving Repr, DecidableEq

/-- `swissdict_ass_sub` of `swissdictobject_simple.c`.  `v = none` models
`value == NULL`, i.e. `del d[k]` — the C immediately raises
`NotImplementedError: deletion is not implemented`.  Otherwise: scan all
groups for an existing key (updating in place on a hit), then the
load-factor check `(used + 1) * 8 > capacity * 7` with
`swissdict_resize(self, used * 2)`, then `insert_into_table`. -/
def swissdict_ass_sub (hf : Nat → Nat) (d : SimpleDict) (k : Nat)
    (v : Option Nat) (allocOk : Bool) : SimpleDict × SimpleSetRes :=
  match v with
  | none => (d, SimpleSetRes.notImplementedError)
  | some v =>
    let hash := hf k
    let h2 := (hash >>> 8) % 128
    match simpleFindExisting d k hash h2 (List.range d.num_groups) with
    | some (g, j) =>
      let grp := d.groups.getD g default
      let grp2 := { grp with values := grp.values.set j v }
      ({ d with
        groups := d.groups.set g grp2,
        version := d.version + 1 }, SimpleSetRes.ok)
    | none =>
      let r := if (d.used + 1) * 8 > d.capacity * 7
        then simple_resize d (d.used * 2) allocOk else (d, true)
      if r.2 = false then (r.1, SimpleSetRes.memError)
      else
        match simple_insert_into_table r.1 k v hash with
        | some d2 =>
          ({ d2 with used := d2.used + 1, version := d2.version + 1 }, SimpleSetRes.ok)
        | none => (r.1, SimpleSetRes.noSpaceError)

/-- Operations against the simple variant (`del` models `d[k] = NULL`,
i.e. `__delitem__`). -/
inductive SimpleOp where
  | set (k v : Nat)
  | del (k : Nat)
deriving Repr, DecidableEq

/-- One operation against the simple variant (results discarded). -/
def simpleStepOp (hf : Nat → Nat) (alloc : Bool) (d : SimpleDict) : SimpleOp → SimpleDict
  | SimpleOp.set k v => (swissdict_ass_sub hf d k (some v) alloc).1
  | SimpleOp.del k => (swissdict_ass_sub hf d k none alloc).1

/-- Run a sequence of operations against a fresh simple-variant table;
`alloc n` tells whether the allocation during the `n`-th operation (if
any) succeeds. -/
def simpleRunGo (hf : Nat → Nat) (alloc : Nat → Bool) : Nat → SimpleDict → List SimpleOp → SimpleDict
  | _, d, [] => d
  | n, d, op :: rest => simpleRunGo hf alloc (n + 1) (simpleStepOp hf (alloc n) d op) rest

/-- The simple-variant table built from `swissdict_new` by a sequence of
operations. -/
def simpleRun (hf : Nat → Nat) (alloc : Nat → Bool) (ops : List SimpleOp) : SimpleDict :=
  simpleRunGo hf alloc 0 simple_new ops

/-! ## The probe sequence the specification describes (for comparison)

Modelled from the spec's words (§4.2): "Starting group index
`g0 = (hash >> 7) & (groups - 1)` … `g_{k+1} = (g_k + k + 1) &
(groups - 1)`, i.e. triangular probing over groups."  This is the
sequence the claim asserts the code uses; it is compared against the
code's `sdictProbeSeq` above. -/

/-- Triangular probe steps: `n` groups starting from `g` at step `k`. -/
def specTriGo (G : Nat) : Nat → Nat → Nat → List Nat
  | 0, _, _ => []
  | n + 1, g, k => g :: specTriGo G n ((g + k + 1) &&& (G - 1)) (k + 1)

/-- The spec's triangular probe sequence (one full cycle of `G` groups). -/
def specTriangularSeq (hash G : Nat) : List Nat :=
  specTriGo G G ((hash >>> 7) &&& (G - 1)) 0

/-! ## Concrete tables used by the claim theorems -/

/-- Nine distinct keys, first two in non-hash order, identity hash: the
9th insert grows the table from capacity 8 to 16. -/
def c2ops : List DictOp :=
  [DictOp.set 1 11, DictOp.set 0 10, DictOp.set 2 12, DictOp.set 3 13,
   DictOp.set 4 14, DictOp.set 5 15, DictOp.set 6 16, DictOp.set 7 17,
   DictOp.set 8 18]

/-- The spec's iterator scenario: a 5-element table. -/
def c7ops : List DictOp :=
  [DictOp.set 10 1, DictOp.set 11 2, DictOp.set 12 3, DictOp.set 13 4,
   DictOp.set 14 5]

/-- Eight distinct keys with identity hash: fills capacity-8 completely. -/
def c8ops : List DictOp := (List.range 8).map (fun i => DictOp.set i i)

/-- A history binding key 3 twice and deleting key 1. -/
def c1ops : List DictOp :=
  [DictOp.set 1 2, DictOp.del 1, DictOp.set 3 4, DictOp.set 3 5]

/-- Fifteen distinct keys, identity hash, into the simple variant: the
15th insert grows the table from one 16-slot group to two, leaving
group 0 with 15 occupied slots and one empty byte. -/
def sops15 : List SimpleOp := (List.range 15).map (fun i => SimpleOp.set i (i + 100))

/-- The simple-variant table after `sops15`. -/
def simple15 : SimpleDict := simpleRun id (fun _ => true) sops15

/-! ## The ordered dict's invariant -/

/-- Number of occupied slots (slots with a non-NULL key). -/
def countOcc (d : Dict) : Nat :=
  (List.range d.capacity).countP (fun i => ((getEntry d i).key).isSome)

/-- Number of tombstoned slots (control byte `SWISS_DELETED`). -/
def countDel (d : Dict) : Nat :=
  (List.range d.capacity).countP (fun i => getCtrl d i == SWISS_DELETED)

/-- The invariant tying an ordered dict to the abstract map `m`:
control bytes agree with occupancy, keys are unique, the abstract map is
exactly the table's contents, every occupied slot is reachable from its
hash's probe start without crossing an `EMPTY` byte, and the `used` /
`deleted` counters count what they claim to count. -/
structure INV (hf : Nat → Nat) (d : Dict) (m : Nat → Option Nat) : Prop where
  cap_pos : 0 < d.capacity
  len_entries : d.entries.length = d.capacity
  len_ctrl : d.ctrl.length = d.capacity
  ctrl_occ : ∀ i < d.capacity, ∀ k, (getEntry d i).key = some k →
    getCtrl d i = swiss_hash_to_ctrl (hf k)
  ctrl_free : ∀ i < d.capacity, (getEntry d i).key = none →
    getCtrl d i = SWISS_EMPTY ∨ getCtrl d i = SWISS_DELETED
  key_distinct : ∀ i < d.capacity, ∀ j < d.capacity, ∀ k,
    (getEntry d i).key = some k → (getEntry d j).key = some k → i = j
  model_slot : ∀ k i, i < d.capacity → (getEntry d i).key = some k →
    m k = some (getEntry d i).value
  model_absent : ∀ k, (∀ i < d.capacity, (getEntry d i).key ≠ some k) → m k = none
  reach : ∀ i < d.capacity, ∀ k, (getEntry d i).key = some k →
    ∃ n < d.capacity, i = (hf k % d.capacity + n) % d.capacity ∧
      ∀ t < n, getCtrl d ((hf k % d.capacity + t) % d.capacity) ≠ SWISS_EMPTY
  used_eq : d.used = countOcc d
  del_eq : d.deleted = countDel d

/-- The invariant of the reinsertion loop of `dict_resize`: after the
old slots `ps` have been processed, the new arrays `(es, cs)` hold
exactly the occupied entries among `ps`, coherently, distinctly,
reachably, with no tombstones. -/
structure ReinsQ (hf : Nat → Nat) (old : Dict) (newCap : Nat)
    (ps : List Nat) (es : List DictEntry) (cs : List Nat) : Prop where
  len_es : es.length = newCap
  len_cs : cs.length = newCap
  qocc : ∀ j < newCap, ∀ k, (es.getD j {}).key = some k →
    cs.getD j 0 = swiss_hash_to_ctrl (hf k)
  qfree : ∀ j < newCap, (es.getD j {}).key = none → cs.getD j 0 = SWISS_EMPTY
  qdist : ∀ j1 < newCap, ∀ j2 < newCap, ∀ k,
    (es.getD j1 {}).key = some k → (es.getD j2 {}).key = some k → j1 = j2
  qback : ∀ j < newCap, ∀ k, (es.getD j {}).key = some k →
    ∃ i ∈ ps, (getEntry old i).key = some k ∧
      (es.getD j {}).value = (getEntry old i).value
  qfwd : ∀ i ∈ ps, ∀ k, (getEntry old i).key = some k →
    ∃ j < newCap, (es.getD j {}).key = some k ∧
      (es.getD j {}).value = (getEntry old i).value
  qreach : ∀ j < newCap, ∀ k, (es.getD j {}).key = some k →
    ∃ n < newCap, j = (hf k % newCap + n) % newCap ∧
      ∀ t < n, cs.getD ((hf k % newCap + t) % newCap) 0 ≠ SWISS_EMPTY
  qcount : (List.range newCap).countP (fun j => ((es.getD j {}).key).isSome) =
    ps.countP (fun i => ((getEntry old i).key).isSome)

/-! # Theorems -/

/-- Justification for modelling C's `i & (capacity - 1)` as `i % capacity`:
the two agree whenever the capacity is a power of two, which the code
maintains (initial capacity 8/16, growth always doubles). -/
theorem land_two_pow_sub_one_eq_mod (i k : Nat) : i &&& (2 ^ k - 1) = i % 2 ^ k := by
  simp [Nat.and_pow_two_sub_one_eq_mod]

/-- C10: a lookup (`dict_subscript`, hence `dict_lookup`/`swiss_probe`)
mutates nothing — the table it leaves behind is the input table, with
`used`, `capacity`, the control bytes, the entries and the
insertion-order list all identical, whether the key is found or not;
consequently `dictiter_next` behaves identically on the table before
and after any subscript, so a get between an iterator's creation and
its `next()` call does not change what `next()` yields. -/
theorem c10_lookup_mutates_nothing (hf : Nat → Nat) (d : Dict) (k : Nat) :
    (dict_subscript hf d k).1 = d ∧
    (∀ cur, dictiter_next (dict_subscript hf d k).1 cur = dictiter_next d cur) := by
  constructor
  · unfold dict_subscript
    cases dict_lookup hf d k <;> rfl
  · intro cur
    unfold dict_subscript
    cases dict_lookup hf d k <;> rfl

/-- C2 (failing input): insert the nine distinct keys
`1, 0, 2, 3, 4, 5, 6, 7, 8` (identity hash) into a fresh ordered dict.
The 9th insert grows the table from capacity 8 to 16; `dict_resize`
walks the old entries by ascending *slot index* (not via the linked
list) and relinks the new table in ascending new-slot order, so
iteration afterwards yields `0, 1, 2, …, 8` — hash order — instead of
the insertion order `1, 0, 2, …, 8` that the claim (and the code's own
"Rebuild the doubly linked list for insertion order" comment) promises. -/
theorem c2_resize_breaks_insertion_order :
    keysInOrder (dictRun id c2ops) =
      [some 0, some 1, some 2, some 3, some 4, some 5, some 6, some 7, some 8] ∧
    keysInOrder (dictRun id c2ops) ≠
      [some 1, some 0, some 2, some 3, some 4, some 5, some 6, some 7, some 8] := by
  constructor
  · decide
  · decide

/-- C3 (failing input): `swissdict_resize` of `swissdictobject.c` on a
fresh table (capacity 8, one group), growing to `min_size = 16`, with
the `control_words` allocation failing.  Out-of-memory is surfaced and
`entries`, `control_words`, `capacity`, `used` are restored — but
`num_groups` is left at the *new* value 2, so the table is *not* in its
pre-rehash state (the one-group-byte control array is now described as
two groups). -/
theorem c3_resize_oom_changes_group_count :
    (swissdict_resize sdict_new 16 true false).2 = false ∧
    (swissdict_resize sdict_new 16 true false).1.num_groups = 2 ∧
    sdict_new.num_groups = 1 ∧
    (swissdict_resize sdict_new 16 true false).1.entries = sdict_new.entries ∧
    (swissdict_resize sdict_new 16 true false).1.ctrl = sdict_new.ctrl ∧
    (swissdict_resize sdict_new 16 true false).1.capacity = sdict_new.capacity ∧
    (swissdict_resize sdict_new 16 true false).1.used = sdict_new.used := by
  decide

/-- C4 (counterexample): deleting any key from the SwissDict variant
(`swissdict_ass_sub` with `value == NULL`, `swissdictobject_simple.c`
lines 186–189) fails with `NotImplementedError` — refuting "it never
fails with a 'not implemented' error". -/
theorem c4_del_not_implemented :
    swissdict_ass_sub id simple_new 0 none true =
      (simple_new, SimpleSetRes.notImplementedError) := by
  decide

/-- C7 (counterexample): the spec's scenario — create an iterator over a
5-element ordered dict, insert a new key, call `next()`.  The call
returns the first inserted key (`10`) as a normal element; it does not
(and cannot) report concurrent-modification: the iterator state created
by `dict_iter` is only a cursor (`ma_head`), with no version snapshot
(`PyDictObject` has no version field), and `dictiter_next` performs no
modification check. -/
theorem c7_next_returns_element_after_insert :
    (dictiter_next (dictStep id (dictRun id c7ops) (DictOp.set 15 6))
        (dict_iter (dictRun id c7ops))).1 = some 10 ∧
    (dictiter_next (dictStep id (dictRun id c7ops) (DictOp.set 15 6))
        (dict_iter (dictRun id c7ops))).1 ≠ none := by
  constructor
  · decide
  · decide

/-- C8 (counterexample): after eight insertions of distinct keys
(identity hash) into a fresh ordered dict, `used + deleted = 8` at
`capacity = 8` — the claimed bound `used + tombstones ≤ capacity * 7 / 8
= 7` fails.  `dict_insert` triggers growth only when
`(used + deleted) / capacity` *strictly exceeds* 0.875, so the eighth
insert (load exactly 0.875 beforehand) fills the table completely. -/
theorem c8_load_factor_violated :
    (dictRun id c8ops).used + (dictRun id c8ops).deleted = 8 ∧
    (dictRun id c8ops).capacity = 8 ∧
    ¬ ((dictRun id c8ops).used + (dictRun id c8ops).deleted ≤
        (dictRun id c8ops).capacity * 7 / 8) := by
  refine ⟨by decide, by decide, by decide⟩

/-- C9 (failing input): an ordered dict holding one entry (key 5 ↦
value 7).  `dict_dealloc` frees the entries array and the control-byte
array and does nothing else — no key or value share is released, though
slot 5 is occupied.  (The SwissDict variant's dealloc does release one
share per occupied slot, but by ascending slot index, not via any
insertion-order list.) -/
theorem c9_dealloc_releases_nothing :
    dict_dealloc (dictRun id [DictOp.set 5 7]) =
      [DeallocAct.freeEntries, DeallocAct.freeCtrl] ∧
    (getEntry (dictRun id [DictOp.set 5 7]) 5).key = some 5 ∧
    (∀ o, DeallocAct.rel o ∉ dict_dealloc (dictRun id [DictOp.set 5 7])) := by
  refine ⟨rfl, by decide, ?_⟩
  intro o
  simp [dict_dealloc]

/-- C5 (counterexample): a reachable simple-variant table (15 distinct
keys inserted, so group 0 holds 15 entries and one `EMPTY` byte, group 1
is entirely empty).  Looking up the absent key 100 visits group 0 —
whose `empty()` mask is nonzero (bit 15) and whose fingerprint matches
all fail — and then *continues to group 1* before reporting not-found:
the code's early exit fires only on `empty_mask == 0xFFFF`, not on "any
bit set" as the claim states. -/
theorem c5_lookup_visits_group_past_empty :
    (simple_subscript id simple15 100).1 = [0, 1] ∧
    emptyMask (simple15.groups.getD 0 default) ≠ 0 ∧
    emptyMask (simple15.groups.getD 0 default) ≠ 65535 ∧
    (simple_subscript id simple15 100).2 = SLookupRes.keyError := by
  refine ⟨by decide, by decide, by decide, by decide⟩

/-- C6 (counterexample): the locate engine of `swissdictobject.c`
(`find_entry`) does not implement the claimed scheme.  At `hash = 128`
with 2 groups, the code starts at group `hash % groups = 0` while the
claim's `g0 = (hash >> 7) & (groups - 1)` is 1; at `hash = 0` with 4
groups the code's order is linear `[0, 1, 2, 3]` while the claim's
triangular order is `[0, 1, 3, 2]`; and the fingerprint is
`h2 = (hash >> 8) & 0x7F` (so `sdictH2 1 = 0`), not `hash & 0x7F = 1`. -/
theorem c6_probe_not_triangular :
    sdictProbeSeq 128 2 ≠ specTriangularSeq 128 2 ∧
    specTriangularSeq 128 2 = [1, 0] ∧
    sdictProbeSeq 128 2 = [0, 1] ∧
    sdictProbeSeq 0 4 = [0, 1, 2, 3] ∧
    specTriangularSeq 0 4 = [0, 1, 3, 2] ∧
    sdictH2 1 = 0 ∧
    (1 : Nat) &&& 127 = 1 := by
  refine ⟨by decide, by decide, by decide, by decide, by decide, by decide, by decide⟩

/-! ## Basic slot access lemmas -/

theorem getEntry_setEntry_self (d : Dict) (i : Nat) (e : DictEntry)
    (h : i < d.entries.length) : getEntry (setEntry d i e) i = e := by
  simp [getEntry, setEntry, List.getD_eq_getElem?_getD, List.getElem?_set_self h]

theorem getEntry_setEntry_ne (d : Dict) (i j : Nat) (e : DictEntry)
    (h : i ≠ j) : getEntry (setEntry d i e) j = getEntry d j := by
  simp [getEntry, setEntry, List.getD_eq_getElem?_getD, List.getElem?_set_ne h]

theorem getCtrl_setCtrl_self (d : Dict) (i c : Nat)
    (h : i < d.ctrl.length) : getCtrl (setCtrl d i c) i = c := by
  simp [getCtrl, setCtrl, List.getD_eq_getElem?_getD, List.getElem?_set_self h]

theorem getCtrl_setCtrl_ne (d : Dict) (i j c : Nat)
    (h : i ≠ j) : getCtrl (setCtrl d i c) j = getCtrl d j := by
  simp [getCtrl, setCtrl, List.getD_eq_getElem?_getD, List.getElem?_set_ne h]

theorem getCtrl_setEntry (d : Dict) (i j : Nat) (e : DictEntry) :
    getCtrl (setEntry d i e) j = getCtrl d j := rfl

theorem getEntry_setCtrl (d : Dict) (i j c : Nat) :
    getEntry (setCtrl d i c) j = getEntry d j := rfl

theorem getD_replicate {α : Type} (n i : Nat) (a dflt : α) (h : i < n) :
    (List.replicate n a).getD i dflt = a := by
  simp [List.getD_eq_getElem?_getD, List.getElem?_replicate, h]

theorem getD_replicate_entry (n i : Nat) (h : i < n) :
    (List.replicate n ({} : DictEntry)).getD i {} = {} :=
  getD_replicate n i ({} : DictEntry) ({} : DictEntry) h

/-! ## Counting lemmas -/

theorem swiss_hash_to_ctrl_eq (hash : Nat) : swiss_hash_to_ctrl hash = hash % 128 := by
  have h : hash % 128 < 128 := Nat.mod_lt _ (by norm_num)
  simp only [swiss_hash_to_ctrl, SWISS_EMPTY, SWISS_DELETED]
  rw [if_neg]
  omega

theorem swiss_hash_to_ctrl_lt (hash : Nat) : swiss_hash_to_ctrl hash < 128 := by
  rw [swiss_hash_to_ctrl_eq]
  exact Nat.mod_lt _ (by norm_num)

theorem countP_range_congr (n : Nat) (p q : Nat → Bool)
    (h : ∀ x < n, p x = q x) :
    (List.range n).countP p = (List.range n).countP q := by
  apply List.countP_congr
  intro x hx
  simp [h x (List.mem_range.mp hx)]

theorem countP_range_set_flip (n j : Nat) (p q : Nat → Bool) (hj : j < n)
    (hpj : p j = false) (hqj : q j = true)
    (hsame : ∀ x, x ≠ j → p x = q x) :
    (List.range n).countP q = (List.range n).countP p + 1 := by
  induction n with
  | zero => omega
  | succ n ih =>
    rw [List.range_succ, List.countP_append, List.countP_append]
    rcases Nat.lt_or_ge j n with hlt | hge
    · rw [ih hlt]
      have : p n = q n := hsame n (by omega)
      simp [List.countP_cons, this]
      omega
    · have hjn : j = n := by omega
      subst hjn
      have : (List.range j).countP p = (List.range j).countP q := by
        apply countP_range_congr
        intro x hx
        exact hsame x (by omega)
      rw [this]
      simp [List.countP_cons, hpj, hqj]

theorem countP_range_set_same (n j : Nat) (p q : Nat → Bool) (hj : j < n)
    (hpq : p j = q j) (hsame : ∀ x, x ≠ j → p x = q x) :
    (List.range n).countP q = (List.range n).countP p := by
  apply countP_range_congr
  intro x _
  by_cases hx : x = j
  · rw [hx]; exact hpq.symm
  · exact (hsame x hx).symm

theorem countP_range_le (n : Nat) (p : Nat → Bool) :
    (List.range n).countP p ≤ n := by
  calc (List.range n).countP p ≤ (List.range n).length := List.countP_le_length p
  _ = n := List.length_range n

theorem countP_range_partition (n : Nat) (p : Nat → Bool) :
    (List.range n).countP p + (List.range n).countP (fun x => !p x) = n := by
  induction n with
  | zero => simp
  | succ n ih =>
    rw [List.range_succ, List.countP_append, List.countP_append]
    cases hp : p n <;> simp [List.countP_cons, hp] <;> omega

/-- The partition of the slots: every slot is occupied, tombstoned, or
empty; in particular if `countOcc + countDel < capacity` some slot has
an `EMPTY` control byte. -/
theorem exists_empty_slot (hf : Nat → Nat) (d : Dict) (m : Nat → Option Nat)
    (hinv : INV hf d m) (hlt : countOcc d + countDel d < d.capacity) :
    ∃ j < d.capacity, getCtrl d j = SWISS_EMPTY := by
  by_contra hcon
  push_neg at hcon
  have hpart := countP_range_partition d.capacity
    (fun i => ((getEntry d i).key).isSome)
  have hmono : (List.range d.capacity).countP
      (fun x => !((getEntry d x).key).isSome) ≤
      (List.range d.capacity).countP (fun i => getCtrl d i == SWISS_DELETED) := by
    apply List.countP_mono_left
    intro x hx hnp
    have hxlt := List.mem_range.mp hx
    cases hkey : (getEntry d x).key with
    | some k => rw [hkey] at hnp; simp at hnp
    | none =>
      rcases hinv.ctrl_free x hxlt hkey with h | h
      · exact absurd h (hcon x hxlt)
      · simp [h]
  have h1 : countOcc d = (List.range d.capacity).countP
      (fun i => ((getEntry d i).key).isSome) := rfl
  have h2 : countDel d = (List.range d.capacity).countP
      (fun i => getCtrl d i == SWISS_DELETED) := rfl
  omega

/-! ## Modular arithmetic helpers for probe paths -/

theorem add_mod_cycle (s j cap : Nat) (hs : s < cap) (hj : j < cap) :
    (s + (j + cap - s) % cap) % cap = j := by
  rw [Nat.add_mod_mod]
  have hle : s ≤ j + cap := by omega
  rw [Nat.add_sub_cancel' hle, Nat.add_mod_right, Nat.mod_eq_of_lt hj]

theorem add_mod_inj (s cap i j : Nat) (hi : i < cap) (hj : j < cap)
    (h : (s + i) % cap = (s + j) % cap) : i = j := by
  have h2 : i % cap = j % cap := Nat.ModEq.add_left_cancel' s h
  rwa [Nat.mod_eq_of_lt hi, Nat.mod_eq_of_lt hj] at h2

/-! ## Probe lemmas -/

/-- A `(j, true)` probe result means slot `j` (a visited, in-range slot)
really holds key `k` with the probed control byte. -/
theorem probeLoop_true_sound (d : Dict) (c k : Nat) (hcap : 0 < d.capacity) :
    ∀ fuel p j, p < d.capacity → probeLoop d c k fuel p = some (j, true) →
      j < d.capacity ∧ getCtrl d j = c ∧ (getEntry d j).key = some k := by
  intro fuel
  induction fuel with
  | zero => intro p j _ h; simp [probeLoop] at h
  | succ fuel ih =>
    intro p j hp h
    unfold probeLoop at h
    split at h
    · rename_i hcond
      injection h with h1
      injection h1 with hj _
      subst hj
      exact ⟨hp, hcond.1, hcond.2⟩
    · split at h
      · injection h with h1
        injection h1 with _ hb
        exact absurd hb (by simp)
      · exact ih _ _ (Nat.mod_lt _ hcap) h

/-- A `(j, false)` probe result means slot `j` is the first `EMPTY` slot
along the probe path: all earlier slots of the path are non-`EMPTY` and
are not key matches. -/
theorem probeLoop_false_sound (d : Dict) (c k : Nat) (hcap : 0 < d.capacity) :
    ∀ fuel p j, p < d.capacity → probeLoop d c k fuel p = some (j, false) →
      ∃ n < fuel, j = (p + n) % d.capacity ∧ getCtrl d j = SWISS_EMPTY ∧
        ∀ t < n, getCtrl d ((p + t) % d.capacity) ≠ SWISS_EMPTY ∧
          ¬ (getCtrl d ((p + t) % d.capacity) = c ∧
             (getEntry d ((p + t) % d.capacity)).key = some k) := by
  intro fuel
  induction fuel with
  | zero => intro p j _ h; simp [probeLoop] at h
  | succ fuel ih =>
    intro p j hp h
    unfold probeLoop at h
    split at h
    · injection h with h1
      injection h1 with _ hb
      exact absurd hb.symm (by simp)
    · rename_i hmatch
      split at h
      · rename_i hempty
        injection h with h1
        injection h1 with hj _
        subst hj
        refine ⟨0, by omega, ?_, hempty, by omega⟩
        rw [Nat.add_zero, Nat.mod_eq_of_lt hp]
      · rename_i hnotempty
        obtain ⟨n, hn, hjeq, hjempty, hpath⟩ := ih _ _ (Nat.mod_lt _ hcap) h
        refine ⟨n + 1, by omega, ?_, hjempty, ?_⟩
        · rw [hjeq, Nat.mod_add_mod]
          congr 1
          omega
        · intro t ht
          cases t with
          | zero =>
            rw [Nat.add_zero, Nat.mod_eq_of_lt hp]
            exact ⟨hnotempty, hmatch⟩
          | succ t =>
            have := hpath t (by omega)
            rw [Nat.mod_add_mod] at this
            have harith : p + 1 + t = p + (t + 1) := by omega
            rwa [harith] at this

/-- An exhausted probe visited `fuel` consecutive slots, none of them
`EMPTY`. -/
theorem probeLoop_none_no_empty (d : Dict) (c k : Nat) (hcap : 0 < d.capacity) :
    ∀ fuel p, p < d.capacity → probeLoop d c k fuel p = none →
      ∀ t < fuel, getCtrl d ((p + t) % d.capacity) ≠ SWISS_EMPTY := by
  intro fuel
  induction fuel with
  | zero => intro p _ _ t ht; omega
  | succ fuel ih =>
    intro p hp h t ht
    unfold probeLoop at h
    split at h
    · exact absurd h (by simp)
    · split at h
      · exact absurd h (by simp)
      · rename_i hnotempty
        cases t with
        | zero =>
          rw [Nat.add_zero, Nat.mod_eq_of_lt hp]
          exact hnotempty
        | succ t =>
          have := ih _ (Nat.mod_lt _ hcap) h t (by omega)
          rw [Nat.mod_add_mod] at this
          have harith : p + 1 + t = p + (t + 1) := by omega
          rwa [harith] at this

/-- Under the invariant, the probe started for key `k` walks its clear
path and reports the slot that holds `k`. -/
theorem probeLoop_reaches (hf : Nat → Nat) (d : Dict) (m : Nat → Option Nat)
    (hinv : INV hf d m) (k i0 n : Nat)
    (hi0 : i0 < d.capacity) (hkey : (getEntry d i0).key = some k)
    (hn : n < d.capacity)
    (hi0eq : i0 = (hf k % d.capacity + n) % d.capacity)
    (hpath : ∀ t < n, getCtrl d ((hf k % d.capacity + t) % d.capacity) ≠ SWISS_EMPTY) :
    ∀ t, t ≤ n →
      probeLoop d (swiss_hash_to_ctrl (hf k)) k (d.capacity - t)
        ((hf k % d.capacity + t) % d.capacity) = some (i0, true) := by
  have hcap := hinv.cap_pos
  have main : ∀ df t, t ≤ n → n - t = df →
      probeLoop d (swiss_hash_to_ctrl (hf k)) k (d.capacity - t)
        ((hf k % d.capacity + t) % d.capacity) = some (i0, true) := by
    intro df
    induction df with
    | zero =>
      intro t ht hdiff
      have htn : t = n := by omega
      subst htn
      have hfuel : d.capacity - t = (d.capacity - t - 1) + 1 := by omega
      rw [hfuel]
      unfold probeLoop
      rw [if_pos]
      · rw [← hi0eq]
      · rw [← hi0eq]
        exact ⟨hinv.ctrl_occ i0 hi0 k hkey, hkey⟩
    | succ df ih =>
      intro t ht hdiff
      have htn : t < n := by omega
      have hfuel : d.capacity - t = (d.capacity - t - 1) + 1 := by omega
      rw [hfuel]
      unfold probeLoop
      rw [if_neg, if_neg]
      · have harg1 : ((hf k % d.capacity + t) % d.capacity + 1) % d.capacity =
            (hf k % d.capacity + (t + 1)) % d.capacity := by
          rw [Nat.mod_add_mod]
          congr 1
        have harg2 : d.capacity - t - 1 = d.capacity - (t + 1) := by omega
        rw [harg1, harg2]
        exact ih (t + 1) (by omega) (by omega)
      · exact hpath t htn
      · rintro ⟨-, hk2⟩
        -- the slot at offset t would hold k; distinctness forces it to be
        -- i0, but offsets t ≠ n give different residues
        have hq : (hf k % d.capacity + t) % d.capacity < d.capacity :=
          Nat.mod_lt _ hcap
        have hii := hinv.key_distinct _ hq i0 hi0 k hk2 hkey
        rw [hi0eq] at hii
        have := add_mod_inj (hf k % d.capacity) d.capacity t n (by omega) hn hii
        omega
  intro t ht
  exact main (n - t) t ht rfl

/-- Under the invariant, a bound key is found by `dict_lookup` with its
current value. -/
theorem dict_lookup_found (hf : Nat → Nat) (d : Dict) (m : Nat → Option Nat)
    (hinv : INV hf d m) (k v : Nat) (hm : m k = some v) :
    ∃ i < d.capacity, (getEntry d i).key = some k ∧ (getEntry d i).value = v ∧
      swiss_probe d (hf k) (swiss_hash_to_ctrl (hf k)) k = some (i, true) ∧
      dict_lookup hf d k = some v := by
  have hcap := hinv.cap_pos
  -- the slot holding k
  have hslot : ∃ i < d.capacity, (getEntry d i).key = some k := by
    by_contra hcon
    push_neg at hcon
    have hnone : m k = none := hinv.model_absent k hcon
    rw [hm] at hnone
    exact Option.noConfusion hnone
  obtain ⟨i0, hi0, hkey⟩ := hslot
  have hval : (getEntry d i0).value = v := by
    have := hinv.model_slot k i0 hi0 hkey
    rw [hm] at this
    exact (Option.some_injective _ this.symm)
  obtain ⟨n, hn, hi0eq, hpath⟩ := hinv.reach i0 hi0 k hkey
  have hzero := probeLoop_reaches hf d m hinv k i0 n hi0 hkey hn hi0eq hpath 0 (by omega)
  have hs : hf k % d.capacity < d.capacity := Nat.mod_lt _ hcap
  rw [Nat.add_zero, Nat.mod_eq_of_lt hs, Nat.sub_zero] at hzero
  refine ⟨i0, hi0, hkey, hval, hzero, ?_⟩
  unfold dict_lookup
  rw [show swiss_probe d (hf k) (swiss_hash_to_ctrl (hf k)) k =
      probeLoop d (swiss_hash_to_ctrl (hf k)) k d.capacity (hf k % d.capacity) from rfl]
  rw [hzero]
  show some (getEntry d i0).value = some v
  rw [hval]

/-- Under the invariant, an unbound key is reported not-found. -/
theorem dict_lookup_absent (hf : Nat → Nat) (d : Dict) (m : Nat → Option Nat)
    (hinv : INV hf d m) (k : Nat) (hm : m k = none) :
    dict_lookup hf d k = none := by
  have hcap := hinv.cap_pos
  have hnoslot : ∀ i < d.capacity, (getEntry d i).key ≠ some k := by
    intro i hi hkey
    have := hinv.model_slot k i hi hkey
    rw [hm] at this
    exact Option.noConfusion this
  unfold dict_lookup
  have hs : hf k % d.capacity < d.capacity := Nat.mod_lt _ hcap
  cases hpr : swiss_probe d (hf k) (swiss_hash_to_ctrl (hf k)) k with
  | none => rfl
  | some r =>
    obtain ⟨j, b⟩ := r
    cases b with
    | true =>
      obtain ⟨hj, _, hkey⟩ := probeLoop_true_sound d _ k hcap d.capacity _ j hs hpr
      exact absurd hkey (hnoslot j hj)
    | false => rfl

/-- Under the invariant, when the table is not completely full the probe
terminates (C's "table full" `-1` cannot happen). -/
theorem swiss_probe_ne_none (hf : Nat → Nat) (d : Dict) (m : Nat → Option Nat)
    (hinv : INV hf d m) (h c k : Nat)
    (hlt : countOcc d + countDel d < d.capacity) :
    swiss_probe d h c k ≠ none := by
  have hcap := hinv.cap_pos
  intro hno
  obtain ⟨j, hj, hempty⟩ := exists_empty_slot hf d m hinv hlt
  have hs : h % d.capacity < d.capacity := Nat.mod_lt _ hcap
  have hcover := probeLoop_none_no_empty d c k hcap d.capacity _ hs hno
    ((j + d.capacity - h % d.capacity) % d.capacity) (Nat.mod_lt _ hcap)
  rw [add_mod_cycle _ _ _ hs hj] at hcover
  exact hcover hempty

/-! ## Generic list update helpers -/

theorem getD_set_self' {α : Type} (l : List α) (i : Nat) (a dflt : α)
    (h : i < l.length) : (l.set i a).getD i dflt = a := by
  simp [List.getD_eq_getElem?_getD, List.getElem?_set_self h]

theorem getD_set_ne' {α : Type} (l : List α) (i j : Nat) (a dflt : α)
    (h : j ≠ i) : (l.set i a).getD j dflt = l.getD j dflt := by
  simp [List.getD_eq_getElem?_getD, List.getElem?_set_ne (Ne.symm h)]

theorem countP_le_countP_range (l : List Nat) (n : Nat) (p : Nat → Bool)
    (hnd : l.Nodup) (hsub : ∀ x ∈ l, x < n) :
    l.countP p ≤ (List.range n).countP p := by
  apply List.Subperm.countP_le
  apply List.subperm_of_subset hnd
  intro x hx
  exact List.mem_range.mpr (hsub x hx)

/-! ## `findEmptySlot` lemmas (the reinsertion scan of `dict_resize`) -/

theorem findEmptySlot_sound (cs : List Nat) (cap : Nat) (hcap : 0 < cap) :
    ∀ fuel p j, p < cap → findEmptySlot cs cap fuel p = some j →
      ∃ n < fuel, j = (p + n) % cap ∧ cs.getD j 0 = SWISS_EMPTY ∧
        ∀ t < n, cs.getD ((p + t) % cap) 0 ≠ SWISS_EMPTY := by
  intro fuel
  induction fuel with
  | zero => intro p j _ h; simp [findEmptySlot] at h
  | succ fuel ih =>
    intro p j hp h
    unfold findEmptySlot at h
    split at h
    · rename_i hempty
      injection h with hj
      subst hj
      refine ⟨0, by omega, ?_, hempty, by omega⟩
      rw [Nat.add_zero, Nat.mod_eq_of_lt hp]
    · rename_i hnotempty
      obtain ⟨n, hn, hjeq, hjempty, hpath⟩ := ih _ _ (Nat.mod_lt _ hcap) h
      refine ⟨n + 1, by omega, ?_, hjempty, ?_⟩
      · rw [hjeq, Nat.mod_add_mod]
        congr 1
        omega
      · intro t ht
        cases t with
        | zero =>
          rw [Nat.add_zero, Nat.mod_eq_of_lt hp]
          exact hnotempty
        | succ t =>
          have := hpath t (by omega)
          rw [Nat.mod_add_mod] at this
          have harith : p + 1 + t = p + (t + 1) := by omega
          rwa [harith] at this

theorem findEmptySlot_none_no_empty (cs : List Nat) (cap : Nat) (hcap : 0 < cap) :
    ∀ fuel p, p < cap → findEmptySlot cs cap fuel p = none →
      ∀ t < fuel, cs.getD ((p + t) % cap) 0 ≠ SWISS_EMPTY := by
  intro fuel
  induction fuel with
  | zero => intro p _ _ t ht; omega
  | succ fuel ih =>
    intro p hp h t ht
    unfold findEmptySlot at h
    split at h
    · exact absurd h (by simp)
    · rename_i hnotempty
      cases t with
      | zero =>
        rw [Nat.add_zero, Nat.mod_eq_of_lt hp]
        exact hnotempty
      | succ t =>
        have := ih _ (Nat.mod_lt _ hcap) h t (by omega)
        rw [Nat.mod_add_mod] at this
        have harith : p + 1 + t = p + (t + 1) := by omega
        rwa [harith] at this

theorem findEmptySlot_ne_none (cs : List Nat) (cap : Nat) (hcap : 0 < cap)
    (p : Nat) (hp : p < cap) (hex : ∃ j < cap, cs.getD j 0 = SWISS_EMPTY) :
    findEmptySlot cs cap cap p ≠ none := by
  intro hno
  obtain ⟨j, hj, hempty⟩ := hex
  have hcover := findEmptySlot_none_no_empty cs cap hcap cap p hp hno
    ((j + cap - p) % cap) (Nat.mod_lt _ hcap)
  rw [add_mod_cycle _ _ _ hp hj] at hcover
  exact hcover hempty

/-- If not every new slot is occupied, the new control array has an
`EMPTY` byte (the reinsertion pass writes no tombstones). -/
theorem reinsQ_exists_empty (hf : Nat → Nat) (old : Dict) (newCap : Nat)
    (ps : List Nat) (es : List DictEntry) (cs : List Nat)
    (hq : ReinsQ hf old newCap ps es cs)
    (hlt : ps.countP (fun i => ((getEntry old i).key).isSome) < newCap) :
    ∃ j < newCap, cs.getD j 0 = SWISS_EMPTY := by
  by_contra hcon
  push_neg at hcon
  have hall : ∀ j ∈ List.range newCap, ((es.getD j {}).key).isSome := by
    intro j hjm
    have hj := List.mem_range.mp hjm
    cases hk : (es.getD j {}).key with
    | none => exact absurd (hq.qfree j hj hk) (hcon j hj)
    | some k => simp
  have hfull : (List.range newCap).countP
      (fun j => ((es.getD j {}).key).isSome) = newCap := by
    have h1 : (List.range newCap).countP
        (fun j => ((es.getD j {}).key).isSome) = (List.range newCap).length := by
      apply List.countP_eq_length.mpr
      intro a ha
      exact hall a ha
    rw [h1, List.length_range]
  rw [hq.qcount] at hfull
  omega

/-- The reinsertion loop of `dict_resize` preserves its invariant. -/
theorem reinsertList_preserves (hf : Nat → Nat) (old : Dict) (mo : Nat → Option Nat)
    (hold : INV hf old mo) (newCap : Nat) (hcap : 0 < newCap)
    (hbig : countOcc old < newCap) :
    ∀ is ps es cs, ReinsQ hf old newCap ps es cs →
      (∀ i ∈ is, i < old.capacity) → (∀ i ∈ is, i ∉ ps) → is.Nodup →
      ps.Nodup → (∀ i ∈ ps, i < old.capacity) →
      ReinsQ hf old newCap (ps ++ is)
        (reinsertList hf old newCap is (es, cs)).1
        (reinsertList hf old newCap is (es, cs)).2 := by
  intro is
  induction is with
  | nil =>
    intro ps es cs hq _ _ _ _ _
    simpa [reinsertList] using hq
  | cons i rest ih =>
    intro ps es cs hq hisb hisp hisnd hpsnd hpsb
    have hi : i < old.capacity := hisb i (by simp)
    have hinotps : i ∉ ps := hisp i (by simp)
    -- facts about the tail
    have hrestb : ∀ x ∈ rest, x < old.capacity := fun x hx => hisb x (by simp [hx])
    have hrestnd : rest.Nodup := (List.nodup_cons.mp hisnd).2
    have hirest : i ∉ rest := (List.nodup_cons.mp hisnd).1
    have happ : ps ++ i :: rest = (ps ++ [i]) ++ rest := by simp
    rw [happ]
    have hps2nd : (ps ++ [i]).Nodup := by
      rw [List.nodup_append]
      refine ⟨hpsnd, List.nodup_singleton i, ?_⟩
      intro a ha hb
      simp at hb
      subst hb
      exact hinotps ha
    have hps2b : ∀ x ∈ ps ++ [i], x < old.capacity := by
      intro x hx
      rcases List.mem_append.mp hx with h | h
      · exact hpsb x h
      · simp at h; subst h; exact hi
    have hrestp2 : ∀ x ∈ rest, x ∉ ps ++ [i] := by
      intro x hx hmem
      rcases List.mem_append.mp hmem with h | h
      · exact hisp x (by simp [hx]) h
      · simp at h; subst h; exact hirest hx
    cases hkey : (old.entries.getD i {}).key with
    | none =>
      -- slot i of the old table is not occupied: skipped
      have hstep : reinsertList hf old newCap (i :: rest) (es, cs) =
          reinsertList hf old newCap rest (es, cs) := by
        unfold reinsertList
        rw [List.foldl_cons]
        congr 1
        unfold reinsertStep
        rw [hkey]
      rw [hstep]
      have hq2 : ReinsQ hf old newCap (ps ++ [i]) es cs := by
        refine ⟨hq.len_es, hq.len_cs, hq.qocc, hq.qfree, hq.qdist, ?_, ?_, hq.qreach, ?_⟩
        · intro j hj k hk
          obtain ⟨i2, hi2, h1, h2⟩ := hq.qback j hj k hk
          exact ⟨i2, by simp [hi2], h1, h2⟩
        · intro i2 hi2 k hk
          rcases List.mem_append.mp hi2 with h | h
          · exact hq.qfwd i2 h k hk
          · simp at h
            subst h
            rw [show getEntry old i2 = old.entries.getD i2 {} from rfl, hkey] at hk
            exact Option.noConfusion hk
        · rw [hq.qcount, List.countP_append]
          have hk2 : ((getEntry old i).key).isSome = false := by
            rw [show getEntry old i = old.entries.getD i {} from rfl, hkey]
            rfl
          have h0 : [i].countP (fun x => ((getEntry old x).key).isSome) = 0 := by
            simp [List.countP_cons, hk2]
          omega
      exact ih (ps ++ [i]) es cs hq2 hrestb hrestp2 hrestnd hps2nd hps2b
    | some k =>
      -- slot i holds key k: it is reinserted at the first empty new slot
      have hctrl : old.ctrl.getD i 0 = swiss_hash_to_ctrl (hf k) :=
        hold.ctrl_occ i hi k hkey
      have hctrlne : old.ctrl.getD i 0 ≠ SWISS_DELETED := by
        rw [hctrl]
        have := swiss_hash_to_ctrl_lt (hf k)
        unfold SWISS_DELETED
        omega
      -- the scan succeeds
      have hcnt : ps.countP (fun x => ((getEntry old x).key).isSome) < newCap := by
        have := countP_le_countP_range ps old.capacity
          (fun x => ((getEntry old x).key).isSome) hpsnd hpsb
        have hco : (List.range old.capacity).countP
            (fun x => ((getEntry old x).key).isSome) = countOcc old := rfl
        omega
      have hs : hf k % newCap < newCap := Nat.mod_lt _ hcap
      have hne := findEmptySlot_ne_none cs newCap hcap (hf k % newCap) hs
        (reinsQ_exists_empty hf old newCap ps es cs hq hcnt)
      cases hfind : findEmptySlot cs newCap newCap (hf k % newCap) with
      | none => exact absurd hfind hne
      | some j =>
        obtain ⟨n, hn, hjeq, hjempty, hpath⟩ :=
          findEmptySlot_sound cs newCap hcap newCap _ j hs hfind
        have hj : j < newCap := by
          rw [hjeq]
          exact Nat.mod_lt _ hcap
        have hjkey : (es.getD j {}).key = none := by
          cases hk2 : (es.getD j {}).key with
          | none => rfl
          | some k2 =>
            have := hq.qocc j hj k2 hk2
            rw [hjempty] at this
            have := swiss_hash_to_ctrl_lt (hf k2)
            unfold SWISS_EMPTY at *
            omega
        have hfresh : ∀ j2, j2 < newCap → (es.getD j2 {}).key ≠ some k := by
          intro j2 hj2 hk2
          obtain ⟨i2, hi2mem, hi2key, _⟩ := hq.qback j2 hj2 k hk2
          have heq : i2 = i := hold.key_distinct i2 (hpsb i2 hi2mem) i hi k hi2key hkey
          subst heq
          exact hinotps hi2mem
        have hstep : reinsertList hf old newCap (i :: rest) (es, cs) =
            reinsertList hf old newCap rest
              (es.set j { key := some k, value := (old.entries.getD i {}).value },
               cs.set j (swiss_hash_to_ctrl (hf k))) := by
          unfold reinsertList
          rw [List.foldl_cons]
          congr 1
          unfold reinsertStep
          simp only [hkey]
          rw [if_pos hctrlne]
          simp only [hfind]
        rw [hstep]
        set e := ({ key := some k, value := (old.entries.getD i {}).value } : DictEntry)
          with he
        have hlen_es : es.length = newCap := hq.len_es
        have hlen_cs : cs.length = newCap := hq.len_cs
        have hjlen : j < es.length := by omega
        have hjlenc : j < cs.length := by omega
        -- the updated arrays satisfy the invariant for ps ++ [i]
        have hq2 : ReinsQ hf old newCap (ps ++ [i]) (es.set j e)
            (cs.set j (swiss_hash_to_ctrl (hf k))) := by
          refine ⟨by simp [hlen_es], by simp [hlen_cs], ?_, ?_, ?_, ?_, ?_, ?_, ?_⟩
          · -- qocc
            intro j2 hj2 k2 hk2
            by_cases hjj : j2 = j
            · subst hjj
              rw [getD_set_self' es j2 e {} hjlen] at hk2
              rw [getD_set_self' cs j2 _ 0 hjlenc]
              rw [he] at hk2
              simp at hk2
              rw [hk2]
            · rw [getD_set_ne' es j j2 e {} hjj] at hk2
              rw [getD_set_ne' cs j j2 _ 0 hjj]
              exact hq.qocc j2 hj2 k2 hk2
          · -- qfree
            intro j2 hj2 hk2
            by_cases hjj : j2 = j
            · subst hjj
              rw [getD_set_self' es j2 e {} hjlen] at hk2
              rw [he] at hk2
              exact Option.noConfusion hk2
            · rw [getD_set_ne' es j j2 e {} hjj] at hk2
              rw [getD_set_ne' cs j j2 _ 0 hjj]
              exact hq.qfree j2 hj2 hk2
          · -- qdist
            intro j1 hj1 j2 hj2 k2 hk1 hk2
            by_cases hjj1 : j1 = j <;> by_cases hjj2 : j2 = j
            · rw [hjj1, hjj2]
            · subst hjj1
              rw [getD_set_self' es j1 e {} hjlen] at hk1
              rw [getD_set_ne' es j1 j2 e {} hjj2] at hk2
              rw [he] at hk1
              simp at hk1
              subst hk1
              exact absurd hk2 (hfresh j2 hj2)
            · subst hjj2
              rw [getD_set_self' es j2 e {} hjlen] at hk2
              rw [getD_set_ne' es j2 j1 e {} hjj1] at hk1
              rw [he] at hk2
              simp at hk2
              subst hk2
              exact absurd hk1 (hfresh j1 hj1)
            · rw [getD_set_ne' es j j1 e {} hjj1] at hk1
              rw [getD_set_ne' es j j2 e {} hjj2] at hk2
              exact hq.qdist j1 hj1 j2 hj2 k2 hk1 hk2
          · -- qback
            intro j2 hj2 k2 hk2
            by_cases hjj : j2 = j
            · subst hjj
              rw [getD_set_self' es j2 e {} hjlen] at hk2 ⊢
              rw [he] at hk2
              simp at hk2
              subst hk2
              exact ⟨i, by simp, hkey, rfl⟩
            · rw [getD_set_ne' es j j2 e {} hjj] at hk2 ⊢
              obtain ⟨i2, hi2, h1, h2⟩ := hq.qback j2 hj2 k2 hk2
              exact ⟨i2, by simp [hi2], h1, h2⟩
          · -- qfwd
            intro i2 hi2 k2 hk2
            rcases List.mem_append.mp hi2 with h | h
            · obtain ⟨j2, hj2, h1, h2⟩ := hq.qfwd i2 h k2 hk2
              have hjj : j2 ≠ j := by
                intro heq
                subst heq
                rw [hjkey] at h1
                exact Option.noConfusion h1
              refine ⟨j2, hj2, ?_, ?_⟩
              · rw [getD_set_ne' es j j2 e {} hjj]; exact h1
              · rw [getD_set_ne' es j j2 e {} hjj]; exact h2
            · simp at h
              subst h
              rw [show getEntry old i2 = old.entries.getD i2 {} from rfl, hkey] at hk2
              injection hk2 with hk2
              subst hk2
              refine ⟨j, hj, ?_, ?_⟩
              · rw [getD_set_self' es j e {} hjlen, he]
              · rw [getD_set_self' es j e {} hjlen, he]
                rfl
          · -- qreach
            intro j2 hj2 k2 hk2
            have hmono : ∀ q, cs.getD q 0 ≠ SWISS_EMPTY →
                (cs.set j (swiss_hash_to_ctrl (hf k))).getD q 0 ≠ SWISS_EMPTY := by
              intro q hq0
              by_cases hqj : q = j
              · subst hqj
                rw [getD_set_self' cs q _ 0 hjlenc]
                have := swiss_hash_to_ctrl_lt (hf k)
                unfold SWISS_EMPTY
                omega
              · rw [getD_set_ne' cs j q _ 0 hqj]
                exact hq0
            by_cases hjj : j2 = j
            · subst hjj
              rw [getD_set_self' es j2 e {} hjlen] at hk2
              rw [he] at hk2
              simp at hk2
              subst hk2
              exact ⟨n, hn, hjeq, fun t ht => hmono _ (hpath t ht)⟩
            · rw [getD_set_ne' es j j2 e {} hjj] at hk2
              obtain ⟨n2, hn2, h1, h2⟩ := hq.qreach j2 hj2 k2 hk2
              exact ⟨n2, hn2, h1, fun t ht => hmono _ (h2 t ht)⟩
          · -- qcount
            have hflip := countP_range_set_flip newCap j
              (fun j2 => ((es.getD j2 {}).key).isSome)
              (fun j2 => (((es.set j e).getD j2 {}).key).isSome)
              hj
              (by
                show ((es.getD j {}).key).isSome = false
                rw [hjkey]
                rfl)
              (by
                show (((es.set j e).getD j {}).key).isSome = true
                rw [getD_set_self' es j e {} hjlen]
                rfl)
              (by
                intro x hx
                show ((es.getD x {}).key).isSome = (((es.set j e).getD x {}).key).isSome
                rw [getD_set_ne' es j x e {} hx])
            rw [hflip, hq.qcount, List.countP_append]
            have hk2 : ((getEntry old i).key).isSome = true := by
              rw [show getEntry old i = old.entries.getD i {} from rfl, hkey]
              rfl
            have h1 : [i].countP (fun x => ((getEntry old x).key).isSome) = 1 := by
              simp [List.countP_cons, hk2]
            omega
        exact ih (ps ++ [i]) _ _ hq2 hrestb hrestp2 hrestnd hps2nd hps2b

/-! ## The list-rebuild pass only touches `prev`/`next` -/

theorem keyval_set_preserve (es : List DictEntry) (i : Nat) (e : DictEntry)
    (hk : e.key = (es.getD i {}).key) (hv : e.value = (es.getD i {}).value) :
    ∀ j, ((es.set i e).getD j {}).key = (es.getD j {}).key ∧
         ((es.set i e).getD j {}).value = (es.getD j {}).value := by
  intro j
  by_cases hij : j = i
  · subst hij
    by_cases hlen : j < es.length
    · rw [getD_set_self' es j e {} hlen]
      exact ⟨hk, hv⟩
    · rw [List.set_eq_of_length_le (by omega)]
      exact ⟨rfl, rfl⟩
  · rw [getD_set_ne' es i j e {} hij]
    exact ⟨rfl, rfl⟩

theorem relinkStep_fields (es : List DictEntry) (hd prev : Option Nat) (i : Nat) :
    (relinkStep (es, hd, prev) i).1.length = es.length ∧
    ∀ j, ((relinkStep (es, hd, prev) i).1.getD j {}).key = (es.getD j {}).key ∧
         ((relinkStep (es, hd, prev) i).1.getD j {}).value = (es.getD j {}).value := by
  cases prev with
  | none =>
    by_cases hocc : ((es.getD i {}).key).isSome = true
    · have hstep : relinkStep (es, hd, none) i =
          (es.set i { es.getD i {} with prev := none, next := none },
           some i, some i) := by
        simp only [relinkStep, if_pos hocc]
        rfl
      rw [hstep]
      refine ⟨by simp, ?_⟩
      intro j
      exact keyval_set_preserve es i
        { es.getD i {} with prev := none, next := none } rfl rfl j
    · have hstep : relinkStep (es, hd, none) i = (es, hd, none) := by
        simp only [relinkStep, if_neg hocc]
      rw [hstep]
      exact ⟨rfl, fun j => ⟨rfl, rfl⟩⟩
  | some p =>
    by_cases hocc : ((es.getD i {}).key).isSome = true
    · have hstep : relinkStep (es, hd, some p) i =
          ((es.set i { es.getD i {} with prev := some p, next := none }).set p
            { (es.set i { es.getD i {} with prev := some p, next := none }).getD p {} with
              next := some i }, hd, some i) := by
        simp only [relinkStep, if_pos hocc]
        rfl
      rw [hstep]
      refine ⟨by simp, ?_⟩
      intro j
      have h1 := keyval_set_preserve es i
        { es.getD i {} with prev := some p, next := none } rfl rfl
      have h2 := keyval_set_preserve
        (es.set i { es.getD i {} with prev := some p, next := none }) p
        { (es.set i { es.getD i {} with prev := some p, next := none }).getD p {} with
          next := some i } rfl rfl
      exact ⟨(h2 j).1.trans (h1 j).1, (h2 j).2.trans (h1 j).2⟩
    · have hstep : relinkStep (es, hd, some p) i = (es, hd, some p) := by
        simp only [relinkStep, if_neg hocc]
      rw [hstep]
      exact ⟨rfl, fun j => ⟨rfl, rfl⟩⟩

theorem foldl_relink_fields (L : List Nat) : ∀ es hd prev,
    (L.foldl relinkStep (es, hd, prev)).1.length = es.length ∧
    ∀ j, ((L.foldl relinkStep (es, hd, prev)).1.getD j {}).key = (es.getD j {}).key ∧
         ((L.foldl relinkStep (es, hd, prev)).1.getD j {}).value = (es.getD j {}).value := by
  induction L with
  | nil => intro es hd prev; exact ⟨rfl, fun j => ⟨rfl, rfl⟩⟩
  | cons i rest ih =>
    intro es hd prev
    rw [List.foldl_cons]
    have hstep := relinkStep_fields es hd prev i
    have heta : relinkStep (es, hd, prev) i =
        ((relinkStep (es, hd, prev) i).1, (relinkStep (es, hd, prev) i).2.1,
         (relinkStep (es, hd, prev) i).2.2) := rfl
    rw [heta]
    have hrec := ih (relinkStep (es, hd, prev) i).1
      (relinkStep (es, hd, prev) i).2.1 (relinkStep (es, hd, prev) i).2.2
    refine ⟨hrec.1.trans hstep.1, ?_⟩
    intro j
    exact ⟨(hrec.2 j).1.trans (hstep.2 j).1, (hrec.2 j).2.trans (hstep.2 j).2⟩

theorem rebuildList_fields (es : List DictEntry) (cap : Nat) :
    (rebuildList es cap).1.length = es.length ∧
    ∀ j, (((rebuildList es cap).1.getD j {}).key = (es.getD j {}).key ∧
          ((rebuildList es cap).1.getD j {}).value = (es.getD j {}).value) := by
  unfold rebuildList
  exact foldl_relink_fields (List.range cap) es none none

/-! ## `dict_resize` preserves the invariant -/

theorem dict_resize_INV (hf : Nat → Nat) (d : Dict) (m : Nat → Option Nat)
    (hinv : INV hf d m) (minCap : Nat) :
    INV hf (dict_resize hf d minCap) m ∧
    (dict_resize hf d minCap).capacity = max (d.capacity * 2) minCap ∧
    (dict_resize hf d minCap).used = d.used ∧
    (dict_resize hf d minCap).deleted = 0 := by
  have hcappos := hinv.cap_pos
  set newCap := max (d.capacity * 2) minCap with hnewCap
  have hcap : 0 < newCap := by
    have : d.capacity * 2 ≤ newCap := le_max_left _ _
    omega
  have hbig : countOcc d < newCap := by
    have h1 : countOcc d ≤ d.capacity := countP_range_le _ _
    have h2 : d.capacity * 2 ≤ newCap := le_max_left _ _
    omega
  -- the initial reinsertion state
  have hq0 : ReinsQ hf d newCap []
      (List.replicate newCap {}) (List.replicate newCap SWISS_EMPTY) := by
    refine ⟨by simp, by simp, ?_, ?_, ?_, ?_, ?_, ?_, ?_⟩
    · intro j hj k hk
      rw [getD_replicate_entry newCap j hj] at hk
      exact Option.noConfusion hk
    · intro j hj _
      exact getD_replicate newCap j SWISS_EMPTY 0 hj
    · intro j1 hj1 j2 hj2 k hk1 hk2
      rw [getD_replicate_entry newCap j1 hj1] at hk1
      exact Option.noConfusion hk1
    · intro j hj k hk
      rw [getD_replicate_entry newCap j hj] at hk
      exact Option.noConfusion hk
    · intro i hi
      exact absurd hi (List.not_mem_nil i)
    · intro j hj k hk
      rw [getD_replicate_entry newCap j hj] at hk
      exact Option.noConfusion hk
    · rw [List.countP_eq_zero.mpr, List.countP_nil]
      intro a ha
      have halt := List.mem_range.mp ha
      rw [getD_replicate_entry newCap a halt]
      simp
  have hq := reinsertList_preserves hf d m hinv newCap hcap hbig
    (List.range d.capacity) [] (List.replicate newCap {})
    (List.replicate newCap SWISS_EMPTY) hq0
    (fun i hi => List.mem_range.mp hi)
    (fun i _ => List.not_mem_nil i)
    (List.nodup_range _) List.nodup_nil (fun i hi => absurd hi (List.not_mem_nil i))
  rw [List.nil_append] at hq
  -- name the results of the two passes
  set es := (reinsertList hf d newCap (List.range d.capacity)
    (List.replicate newCap {}, List.replicate newCap SWISS_EMPTY)).1 with hes
  set cs := (reinsertList hf d newCap (List.range d.capacity)
    (List.replicate newCap {}, List.replicate newCap SWISS_EMPTY)).2 with hcs
  have hreb := rebuildList_fields es newCap
  -- the resulting table's fields
  have hd' : dict_resize hf d minCap =
      { capacity := newCap, used := d.used, deleted := 0,
        entries := (rebuildList es newCap).1, ctrl := cs,
        head := (rebuildList es newCap).2.1, tail := (rebuildList es newCap).2.2 } := by
    unfold dict_resize
    rw [← hnewCap, hes, hcs]
  rw [hd']
  set d2 : Dict :=
    { capacity := newCap, used := d.used, deleted := 0,
      entries := (rebuildList es newCap).1, ctrl := cs,
      head := (rebuildList es newCap).2.1, tail := (rebuildList es newCap).2.2 }
    with hd2
  have hgetE : ∀ j, (getEntry d2 j).key = (es.getD j {}).key ∧
      (getEntry d2 j).value = (es.getD j {}).value := by
    intro j
    exact (hreb.2 j)
  have hgetC : ∀ j, getCtrl d2 j = cs.getD j 0 := fun j => rfl
  refine ⟨?_, rfl, rfl, rfl⟩
  refine ⟨hcap, ?_, hq.len_cs, ?_, ?_, ?_, ?_, ?_, ?_, ?_, ?_⟩
  · show (rebuildList es newCap).1.length = newCap
    rw [hreb.1, hq.len_es]
  · -- ctrl_occ
    intro i hi k hk
    rw [(hgetE i).1] at hk
    rw [hgetC i]
    exact hq.qocc i hi k hk
  · -- ctrl_free
    intro i hi hk
    rw [(hgetE i).1] at hk
    rw [hgetC i]
    exact Or.inl (hq.qfree i hi hk)
  · -- key_distinct
    intro i hi j hj k hk1 hk2
    rw [(hgetE i).1] at hk1
    rw [(hgetE j).1] at hk2
    exact hq.qdist i hi j hj k hk1 hk2
  · -- model_slot
    intro k i hi hk
    rw [(hgetE i).1] at hk
    obtain ⟨i2, hi2mem, h1, h2⟩ := hq.qback i hi k hk
    have hi2 := List.mem_range.mp hi2mem
    have := hinv.model_slot k i2 hi2 h1
    rw [this, (hgetE i).2, h2]
  · -- model_absent
    intro k hnone
    apply hinv.model_absent k
    intro i hi hk
    obtain ⟨j, hj, h1, _⟩ := hq.qfwd i (List.mem_range.mpr hi) k hk
    apply hnone j hj
    rw [(hgetE j).1]
    exact h1
  · -- reach
    intro i hi k hk
    rw [(hgetE i).1] at hk
    obtain ⟨n, hn, h1, h2⟩ := hq.qreach i hi k hk
    exact ⟨n, hn, h1, fun t ht => h2 t ht⟩
  · -- used_eq
    show d.used = countOcc d2
    rw [hinv.used_eq]
    have hco2 : countOcc d2 = (List.range newCap).countP
        (fun j => ((es.getD j {}).key).isSome) := by
      apply countP_range_congr
      intro x _
      rw [(hgetE x).1]
    rw [hco2, hq.qcount]
    rfl
  · -- del_eq
    show 0 = countDel d2
    symm
    apply List.countP_eq_zero.mpr
    intro a ha
    have halt := List.mem_range.mp ha
    rw [show getCtrl d2 a = cs.getD a 0 from rfl]
    cases hk : (es.getD a {}).key with
    | some k =>
      have := hq.qocc a halt k hk
      have hlt := swiss_hash_to_ctrl_lt (hf k)
      simp only [this]
      unfold SWISS_DELETED
      simp
      omega
    | none =>
      have := hq.qfree a halt hk
      simp only [this]
      unfold SWISS_EMPTY SWISS_DELETED
      simp

/-! ## `dict_insert` preserves the invariant -/

/-- The new-entry write of `dict_insert_core`, abstracted over the
intermediate table `d2` (the state after the entry write, control-byte
write and tail patch, before `tail`/`used` are updated): the final table
satisfies the invariant against the updated abstract map. -/
theorem insert_new_INV (hf : Nat → Nat) (d0 : Dict) (m : Nat → Option Nat)
    (hinv : INV hf d0 m) (k v i n : Nat) (d2 : Dict)
    (hi : i < d0.capacity)
    (hikey : (getEntry d0 i).key = none)
    (hiempty : getCtrl d0 i = SWISS_EMPTY)
    (hmk : m k = none)
    (hn : n < d0.capacity)
    (hieq : i = (hf k % d0.capacity + n) % d0.capacity)
    (hpath : ∀ t < n, getCtrl d0 ((hf k % d0.capacity + t) % d0.capacity) ≠ SWISS_EMPTY)
    (hcap2 : d2.capacity = d0.capacity)
    (hlen2e : d2.entries.length = d0.capacity)
    (hlen2c : d2.ctrl.length = d0.capacity)
    (hused2 : d2.used = d0.used) (hdel2 : d2.deleted = d0.deleted)
    (hkeyi : (getEntry d2 i).key = some k)
    (hvali : (getEntry d2 i).value = v)
    (hkeyj : ∀ j, j ≠ i → (getEntry d2 j).key = (getEntry d0 j).key)
    (hvalj : ∀ j, j ≠ i → (getEntry d2 j).value = (getEntry d0 j).value)
    (hctrli : getCtrl d2 i = swiss_hash_to_ctrl (hf k))
    (hctrlj : ∀ j, j ≠ i → getCtrl d2 j = getCtrl d0 j) :
    INV hf { d2 with tail := some i, used := d2.used + 1 }
      (fun x => if x = k then some v else m x) := by
  have hcap := hinv.cap_pos
  have hnok : ∀ j < d0.capacity, (getEntry d0 j).key ≠ some k := by
    intro j hj hkj
    have := hinv.model_slot k j hj hkj
    rw [hmk] at this
    exact Option.noConfusion this
  have hfplt := swiss_hash_to_ctrl_lt (hf k)
  have hmono : ∀ q, getCtrl d0 q ≠ SWISS_EMPTY → getCtrl d2 q ≠ SWISS_EMPTY := by
    intro q hq0
    by_cases hqi : q = i
    · subst hqi
      rw [hctrli]
      unfold SWISS_EMPTY
      omega
    · rw [hctrlj q hqi]
      exact hq0
  refine ⟨?_, ?_, ?_, ?_, ?_, ?_, ?_, ?_, ?_, ?_, ?_⟩
  · show 0 < d2.capacity
    omega
  · show d2.entries.length = d2.capacity
    omega
  · show d2.ctrl.length = d2.capacity
    omega
  · -- ctrl_occ
    intro j hj x hkx
    replace hkx : (getEntry d2 j).key = some x := hkx
    replace hj : j < d2.capacity := hj
    rw [hcap2] at hj
    show getCtrl d2 j = swiss_hash_to_ctrl (hf x)
    by_cases hij : j = i
    · subst hij
      rw [hkeyi] at hkx
      injection hkx with hkx
      subst hkx
      exact hctrli
    · rw [hkeyj j hij] at hkx
      rw [hctrlj j hij]
      exact hinv.ctrl_occ j hj x hkx
  · -- ctrl_free
    intro j hj hkx
    replace hkx : (getEntry d2 j).key = none := hkx
    replace hj : j < d2.capacity := hj
    rw [hcap2] at hj
    show getCtrl d2 j = SWISS_EMPTY ∨ getCtrl d2 j = SWISS_DELETED
    by_cases hij : j = i
    · subst hij
      rw [hkeyi] at hkx
      exact Option.noConfusion hkx
    · rw [hkeyj j hij] at hkx
      rw [hctrlj j hij]
      exact hinv.ctrl_free j hj hkx
  · -- key_distinct
    intro j1 hj1 j2 hj2 x hk1 hk2
    replace hk1 : (getEntry d2 j1).key = some x := hk1
    replace hk2 : (getEntry d2 j2).key = some x := hk2
    replace hj1 : j1 < d2.capacity := hj1
    replace hj2 : j2 < d2.capacity := hj2
    rw [hcap2] at hj1 hj2
    by_cases h1 : j1 = i <;> by_cases h2 : j2 = i
    · rw [h1, h2]
    · subst h1
      rw [hkeyi] at hk1
      injection hk1 with hk1
      subst hk1
      rw [hkeyj j2 h2] at hk2
      exact absurd hk2 (hnok j2 hj2)
    · subst h2
      rw [hkeyi] at hk2
      injection hk2 with hk2
      subst hk2
      rw [hkeyj j1 h1] at hk1
      exact absurd hk1 (hnok j1 hj1)
    · rw [hkeyj j1 h1] at hk1
      rw [hkeyj j2 h2] at hk2
      exact hinv.key_distinct j1 hj1 j2 hj2 x hk1 hk2
  · -- model_slot
    intro x j hj hkx
    replace hkx : (getEntry d2 j).key = some x := hkx
    replace hj : j < d2.capacity := hj
    rw [hcap2] at hj
    by_cases hij : j = i
    · subst hij
      rw [hkeyi] at hkx
      injection hkx with hkx
      subst hkx
      show (if k = k then some v else m k) = some (getEntry d2 j).value
      rw [if_pos rfl, hvali]
    · rw [hkeyj j hij] at hkx
      have hxk : x ≠ k := by
        intro h
        subst h
        exact hnok j hj hkx
      show (if x = k then some v else m x) = some (getEntry d2 j).value
      rw [if_neg hxk, hvalj j hij]
      exact hinv.model_slot x j hj hkx
  · -- model_absent
    intro x hx
    replace hx : ∀ j, j < d2.capacity → (getEntry d2 j).key ≠ some x := fun j hj => hx j hj
    rw [hcap2] at hx
    have hxk : x ≠ k := by
      intro h
      subst h
      exact hx i hi hkeyi
    show (if x = k then some v else m x) = none
    rw [if_neg hxk]
    apply hinv.model_absent
    intro j hj hkj
    by_cases hij : j = i
    · subst hij
      rw [hikey] at hkj
      exact Option.noConfusion hkj
    · apply hx j hj
      rw [hkeyj j hij]
      exact hkj
  · -- reach
    intro j hj x hkx
    replace hkx : (getEntry d2 j).key = some x := hkx
    replace hj : j < d2.capacity := hj
    rw [hcap2] at hj
    show ∃ n2 < d2.capacity, j = (hf x % d2.capacity + n2) % d2.capacity ∧
      ∀ t < n2, getCtrl d2 ((hf x % d2.capacity + t) % d2.capacity) ≠ SWISS_EMPTY
    rw [hcap2]
    by_cases hij : j = i
    · subst hij
      rw [hkeyi] at hkx
      injection hkx with hkx
      subst hkx
      exact ⟨n, hn, hieq, fun t ht => hmono _ (hpath t ht)⟩
    · rw [hkeyj j hij] at hkx
      obtain ⟨n2, hn2, h1, h2⟩ := hinv.reach j hj x hkx
      exact ⟨n2, hn2, h1, fun t ht => hmono _ (h2 t ht)⟩
  · -- used_eq
    show d2.used + 1 = countOcc { d2 with tail := some i, used := d2.used + 1 }
    have hco : countOcc { d2 with tail := some i, used := d2.used + 1 } =
        (List.range d0.capacity).countP (fun j => ((getEntry d2 j).key).isSome) := by
      have h1 : countOcc { d2 with tail := some i, used := d2.used + 1 } =
          (List.range d2.capacity).countP (fun j => ((getEntry d2 j).key).isSome) := rfl
      rw [h1, hcap2]
    rw [hco]
    have hflip := countP_range_set_flip d0.capacity i
      (fun j => ((getEntry d0 j).key).isSome)
      (fun j => ((getEntry d2 j).key).isSome)
      hi
      (by show ((getEntry d0 i).key).isSome = false; rw [hikey]; rfl)
      (by show ((getEntry d2 i).key).isSome = true; rw [hkeyi]; rfl)
      (by
        intro x hx
        show ((getEntry d0 x).key).isSome = ((getEntry d2 x).key).isSome
        rw [hkeyj x hx])
    have hc0 : (List.range d0.capacity).countP
        (fun j => ((getEntry d0 j).key).isSome) = countOcc d0 := rfl
    have := hinv.used_eq
    omega
  · -- del_eq
    show d2.deleted = countDel { d2 with tail := some i, used := d2.used + 1 }
    have hcd : countDel { d2 with tail := some i, used := d2.used + 1 } =
        (List.range d0.capacity).countP
          (fun j => getCtrl d2 j == SWISS_DELETED) := by
      have h1 : countDel { d2 with tail := some i, used := d2.used + 1 } =
          (List.range d2.capacity).countP
            (fun j => getCtrl d2 j == SWISS_DELETED) := rfl
      rw [h1, hcap2]
    rw [hcd]
    have hsame := countP_range_set_same d0.capacity i
      (fun j => getCtrl d0 j == SWISS_DELETED)
      (fun j => getCtrl d2 j == SWISS_DELETED)
      hi
      (by
        show (getCtrl d0 i == SWISS_DELETED) = (getCtrl d2 i == SWISS_DELETED)
        rw [hiempty, hctrli]
        unfold SWISS_EMPTY SWISS_DELETED
        simp
        omega)
      (by
        intro x hx
        show (getCtrl d0 x == SWISS_DELETED) = (getCtrl d2 x == SWISS_DELETED)
        rw [hctrlj x hx])
    have hc0 : (List.range d0.capacity).countP
        (fun j => getCtrl d0 j == SWISS_DELETED) = countDel d0 := rfl
    have := hinv.del_eq
    omega

/-- `dict_insert_core` under the invariant, with room in the table:
returns `0` (ok) and preserves the invariant against the updated map. -/
theorem dict_insert_core_INV (hf : Nat → Nat) (d0 : Dict) (m : Nat → Option Nat)
    (hinv : INV hf d0 m) (k v : Nat)
    (hroom : countOcc d0 + countDel d0 < d0.capacity) :
    INV hf (dict_insert_core hf d0 k v).1 (fun x => if x = k then some v else m x) ∧
    (dict_insert_core hf d0 k v).2.1 = SetResult.ok := by
  have hcap := hinv.cap_pos
  have hs : hf k % d0.capacity < d0.capacity := Nat.mod_lt _ hcap
  cases hpr : swiss_probe d0 (hf k) (swiss_hash_to_ctrl (hf k)) k with
  | none => exact absurd hpr (swiss_probe_ne_none hf d0 m hinv _ _ k hroom)
  | some r =>
    obtain ⟨i, b⟩ := r
    cases b with
    | true =>
      -- overwrite path
      obtain ⟨hi, hctrl, hkey⟩ := probeLoop_true_sound d0 _ k hcap d0.capacity _ i hs hpr
      have hcore : dict_insert_core hf d0 k v =
          (setEntry d0 i { getEntry d0 i with value := v }, SetResult.ok,
           [RefEff.rel (getEntry d0 i).value, RefEff.acq v]) := by
        unfold dict_insert_core
        rw [hpr]
      rw [hcore]
      refine ⟨?_, rfl⟩
      have hilen : i < d0.entries.length := by rw [hinv.len_entries]; exact hi
      have hkeyj : ∀ j, (getEntry (setEntry d0 i { getEntry d0 i with value := v }) j).key =
          (getEntry d0 j).key := by
        intro j
        by_cases hij : j = i
        · subst hij
          rw [getEntry_setEntry_self d0 j _ hilen]
        · rw [getEntry_setEntry_ne d0 i j _ (fun h => hij h.symm)]
      have hvalj : ∀ j, j ≠ i →
          (getEntry (setEntry d0 i { getEntry d0 i with value := v }) j).value =
          (getEntry d0 j).value := by
        intro j hij
        rw [getEntry_setEntry_ne d0 i j _ (fun h => hij h.symm)]
      have hvali : (getEntry (setEntry d0 i { getEntry d0 i with value := v }) i).value = v := by
        rw [getEntry_setEntry_self d0 i _ hilen]
      have hctrlj : ∀ j, getCtrl (setEntry d0 i { getEntry d0 i with value := v }) j =
          getCtrl d0 j := fun j => rfl
      refine ⟨?_, ?_, ?_, ?_, ?_, ?_, ?_, ?_, ?_, ?_, ?_⟩
      · exact hcap
      · show (d0.entries.set i _).length = d0.capacity
        rw [List.length_set]
        exact hinv.len_entries
      · exact hinv.len_ctrl
      · intro j hj x hkx
        replace hj : j < d0.capacity := hj
        rw [hkeyj j] at hkx
        rw [hctrlj j]
        exact hinv.ctrl_occ j hj x hkx
      · intro j hj hkx
        replace hj : j < d0.capacity := hj
        rw [hkeyj j] at hkx
        rw [hctrlj j]
        exact hinv.ctrl_free j hj hkx
      · intro j1 hj1 j2 hj2 x hk1 hk2
        replace hj1 : j1 < d0.capacity := hj1
        replace hj2 : j2 < d0.capacity := hj2
        rw [hkeyj j1] at hk1
        rw [hkeyj j2] at hk2
        exact hinv.key_distinct j1 hj1 j2 hj2 x hk1 hk2
      · -- model_slot
        intro x j hj hkx
        replace hj : j < d0.capacity := hj
        rw [hkeyj j] at hkx
        by_cases hxk : x = k
        · subst hxk
          have hji : j = i := hinv.key_distinct j hj i hi x hkx hkey
          subst hji
          show (if x = x then some v else m x) = some _
          rw [if_pos rfl, hvali]
        · have hji : j ≠ i := by
            intro h
            subst h
            rw [hkey] at hkx
            injection hkx with hkx
            exact hxk hkx.symm
          show (if x = k then some v else m x) = some _
          rw [if_neg hxk, hvalj j hji]
          exact hinv.model_slot x j hj hkx
      · -- model_absent
        intro x hx
        have hxk : x ≠ k := by
          intro h
          subst h
          apply hx i hi
          rw [hkeyj i]
          exact hkey
        show (if x = k then some v else m x) = none
        rw [if_neg hxk]
        apply hinv.model_absent
        intro j hj hkj
        apply hx j hj
        rw [hkeyj j]
        exact hkj
      · -- reach
        intro j hj x hkx
        replace hj : j < d0.capacity := hj
        rw [hkeyj j] at hkx
        obtain ⟨n2, hn2, h1, h2⟩ := hinv.reach j hj x hkx
        exact ⟨n2, hn2, h1, fun t ht => h2 t ht⟩
      · -- used_eq
        show d0.used = countOcc (setEntry d0 i { getEntry d0 i with value := v })
        have hco : countOcc (setEntry d0 i { getEntry d0 i with value := v }) =
            countOcc d0 := by
          apply countP_range_congr
          intro x _
          rw [hkeyj x]
        rw [hco]
        exact hinv.used_eq
      · -- del_eq
        show d0.deleted = countDel (setEntry d0 i { getEntry d0 i with value := v })
        have hcd : countDel (setEntry d0 i { getEntry d0 i with value := v }) =
            countDel d0 := by
          apply countP_range_congr
          intro x _
          rfl
        rw [hcd]
        exact hinv.del_eq
    | false =>
      -- new-entry path
      obtain ⟨n, hn, hieq, hiempty, hpath⟩ :=
        probeLoop_false_sound d0 _ k hcap d0.capacity _ i hs hpr
      have hi : i < d0.capacity := by
        rw [hieq]
        exact Nat.mod_lt _ hcap
      have hikey : (getEntry d0 i).key = none := by
        cases hk0 : (getEntry d0 i).key with
        | none => rfl
        | some k2 =>
          have h1 := hinv.ctrl_occ i hi k2 hk0
          rw [hiempty] at h1
          have h2 := swiss_hash_to_ctrl_lt (hf k2)
          unfold SWISS_EMPTY at h1
          omega
      have hmk : m k = none := by
        cases hmk0 : m k with
        | none => rfl
        | some w =>
          obtain ⟨i0, hi0, hk0, hv0, hprobe, _⟩ := dict_lookup_found hf d0 m hinv k w hmk0
          rw [hpr] at hprobe
          injection hprobe with h1
          injection h1 with _ hb
          exact absurd hb (by simp)
      have hpath1 : ∀ t < n, getCtrl d0 ((hf k % d0.capacity + t) % d0.capacity) ≠
          SWISS_EMPTY := fun t ht => (hpath t ht).1
      have hilen : i < d0.entries.length := by rw [hinv.len_entries]; exact hi
      have hilenc : i < d0.ctrl.length := by rw [hinv.len_ctrl]; exact hi
      set e : DictEntry :=
        { key := some k, value := v, prev := d0.tail, next := none } with he
      set d1 : Dict := setCtrl (setEntry d0 i e) i (swiss_hash_to_ctrl (hf k)) with hd1
      -- pointwise facts about d1
      have hd1keyi : (getEntry d1 i).key = some k := by
        rw [hd1, show getEntry (setCtrl (setEntry d0 i e) i _) i =
            getEntry (setEntry d0 i e) i from rfl]
        rw [getEntry_setEntry_self d0 i e hilen]
      have hd1vali : (getEntry d1 i).value = v := by
        rw [hd1, show getEntry (setCtrl (setEntry d0 i e) i _) i =
            getEntry (setEntry d0 i e) i from rfl]
        rw [getEntry_setEntry_self d0 i e hilen]
      have hd1keyj : ∀ j, j ≠ i → (getEntry d1 j).key = (getEntry d0 j).key := by
        intro j hij
        rw [hd1, show getEntry (setCtrl (setEntry d0 i e) i _) j =
            getEntry (setEntry d0 i e) j from rfl]
        rw [getEntry_setEntry_ne d0 i j e (fun h => hij h.symm)]
      have hd1valj : ∀ j, j ≠ i → (getEntry d1 j).value = (getEntry d0 j).value := by
        intro j hij
        rw [hd1, show getEntry (setCtrl (setEntry d0 i e) i _) j =
            getEntry (setEntry d0 i e) j from rfl]
        rw [getEntry_setEntry_ne d0 i j e (fun h => hij h.symm)]
      have hd1ctrli : getCtrl d1 i = swiss_hash_to_ctrl (hf k) := by
        rw [hd1]
        apply getCtrl_setCtrl_self
        show i < (setEntry d0 i e).ctrl.length
        exact hilenc
      have hd1ctrlj : ∀ j, j ≠ i → getCtrl d1 j = getCtrl d0 j := by
        intro j hij
        rw [hd1]
        rw [getCtrl_setCtrl_ne (setEntry d0 i e) i j _ (fun h => hij h.symm)]
        rfl
      have hd1lene : d1.entries.length = d0.capacity := by
        rw [hd1]
        show (d0.entries.set i e).length = d0.capacity
        rw [List.length_set]
        exact hinv.len_entries
      have hd1lenc : d1.ctrl.length = d0.capacity := by
        rw [hd1]
        show ((d0.entries.set i e, d0.ctrl).2.set i _).length = d0.capacity
        rw [List.length_set]
        exact hinv.len_ctrl
      -- dispatch on the tail patch
      cases htail : d0.tail with
      | none =>
        set d1h : Dict := { d1 with head := some i } with hd1h
        have hcore : dict_insert_core hf d0 k v =
            ({ d1h with tail := some i, used := d1h.used + 1 }, SetResult.ok,
             [RefEff.acq k, RefEff.acq v]) := by
          unfold dict_insert_core
          rw [hpr]
          rw [hd1h, hd1, he, htail]
        rw [hcore]
        refine ⟨?_, rfl⟩
        apply insert_new_INV hf d0 m hinv k v i n d1h
          hi hikey hiempty hmk hn hieq hpath1
          rfl
          (by rw [hd1h]; exact hd1lene)
          (by rw [hd1h]; exact hd1lenc)
          rfl rfl
        · rw [hd1h]
          exact hd1keyi
        · rw [hd1h]
          exact hd1vali
        · intro j hij
          rw [hd1h]
          exact hd1keyj j hij
        · intro j hij
          rw [hd1h]
          exact hd1valj j hij
        · rw [hd1h]
          exact hd1ctrli
        · intro j hij
          rw [hd1h]
          exact hd1ctrlj j hij
      | some t =>
        set e2 : DictEntry := { getEntry d1 t with next := some i } with he2
        set d2 : Dict := setEntry d1 t e2 with hd2
        have hcore : dict_insert_core hf d0 k v =
            ({ d2 with tail := some i, used := d2.used + 1 }, SetResult.ok,
             [RefEff.acq k, RefEff.acq v]) := by
          unfold dict_insert_core
          rw [hpr]
          rw [hd2, he2, hd1, he, htail]
        rw [hcore]
        refine ⟨?_, rfl⟩
        -- the tail patch preserves keys and values
        have hkv := keyval_set_preserve d1.entries t e2 (by rw [he2]; rfl) (by rw [he2]; rfl)
        have hkvE : ∀ j, (getEntry d2 j).key = (getEntry d1 j).key ∧
            (getEntry d2 j).value = (getEntry d1 j).value := by
          intro j
          exact hkv j
        apply insert_new_INV hf d0 m hinv k v i n d2
          hi hikey hiempty hmk hn hieq hpath1
          rfl
          (by
            rw [hd2]
            show (d1.entries.set t e2).length = d0.capacity
            rw [List.length_set]
            exact hd1lene)
          (by rw [hd2]; exact hd1lenc)
          rfl rfl
        · rw [(hkvE i).1]
          exact hd1keyi
        · rw [(hkvE i).2]
          exact hd1vali
        · intro j hij
          rw [(hkvE j).1]
          exact hd1keyj j hij
        · intro j hij
          rw [(hkvE j).2]
          exact hd1valj j hij
        · show getCtrl d2 i = _
          rw [hd2]
          show getCtrl d1 i = _
          exact hd1ctrli
        · intro j hij
          show getCtrl d2 j = _
          rw [hd2]
          show getCtrl d1 j = _
          exact hd1ctrlj j hij

/-- `dict_insert` preserves the invariant and always succeeds. -/
theorem dict_insert_INV (hf : Nat → Nat) (d : Dict) (m : Nat → Option Nat)
    (hinv : INV hf d m) (k v : Nat) :
    INV hf (dict_insert hf d k v).1 (fun x => if x = k then some v else m x) ∧
    (dict_insert hf d k v).2.1 = SetResult.ok := by
  unfold dict_insert
  by_cases hres : 8 * (d.used + d.deleted) > 7 * d.capacity
  · rw [if_pos hres]
    obtain ⟨hinv2, hcap2, hused2, hdel2⟩ := dict_resize_INV hf d m hinv (d.capacity * 2)
    apply dict_insert_core_INV hf _ m hinv2 k v
    have h1 : countOcc (dict_resize hf d (d.capacity * 2)) =
        (dict_resize hf d (d.capacity * 2)).used := hinv2.used_eq.symm
    have h2 : countDel (dict_resize hf d (d.capacity * 2)) =
        (dict_resize hf d (d.capacity * 2)).deleted := hinv2.del_eq.symm
    have h3 : countOcc d = d.used := hinv.used_eq.symm
    have h4 : countOcc d ≤ d.capacity := countP_range_le _ _
    have h5 : d.capacity * 2 ≤ (dict_resize hf d (d.capacity * 2)).capacity := by
      rw [hcap2]
      exact le_max_left _ _
    have := hinv.cap_pos
    omega
  · rw [if_neg hres]
    apply dict_insert_core_INV hf d m hinv k v
    have h1 := hinv.used_eq
    have h2 := hinv.del_eq
    have := hinv.cap_pos
    omega

/-! ## `dict_delete` preserves the invariant -/

/-- The tombstoning write of `dict_delete_core`, abstracted over the
intermediate table `d2` (the state after the two unlink patches, before
the slot is cleared): clearing slot `i` and tombstoning its control byte
yields the invariant against the abstract map with `k` unbound. -/
theorem delete_mid_INV (hf : Nat → Nat) (d0 : Dict) (m : Nat → Option Nat)
    (hinv : INV hf d0 m) (k i : Nat) (d2 : Dict)
    (hi : i < d0.capacity)
    (hikey : (getEntry d0 i).key = some k)
    (hcap2 : d2.capacity = d0.capacity)
    (hlen2e : d2.entries.length = d0.capacity)
    (hlen2c : d2.ctrl.length = d0.capacity)
    (hused2 : d2.used = d0.used) (hdel2 : d2.deleted = d0.deleted)
    (hkeyj : ∀ j, (getEntry d2 j).key = (getEntry d0 j).key)
    (hvalj : ∀ j, (getEntry d2 j).value = (getEntry d0 j).value)
    (hctrlj : ∀ j, getCtrl d2 j = getCtrl d0 j) :
    INV hf { setCtrl (setEntry d2 i {}) i SWISS_DELETED with
      used := (setCtrl (setEntry d2 i {}) i SWISS_DELETED).used - 1,
      deleted := (setCtrl (setEntry d2 i {}) i SWISS_DELETED).deleted + 1 }
      (fun x => if x = k then none else m x) ∧
    (setCtrl (setEntry d2 i {}) i SWISS_DELETED).used = d0.used := by
  have hcap := hinv.cap_pos
  set d3 := setCtrl (setEntry d2 i {}) i SWISS_DELETED with hd3
  have hilen : i < d2.entries.length := by omega
  have hilenc : i < d2.ctrl.length := by omega
  have h3keyi : (getEntry d3 i).key = none := by
    rw [hd3, show getEntry (setCtrl (setEntry d2 i {}) i _) i =
        getEntry (setEntry d2 i {}) i from rfl]
    rw [getEntry_setEntry_self d2 i {} hilen]
  have h3keyj : ∀ j, j ≠ i → (getEntry d3 j).key = (getEntry d0 j).key := by
    intro j hij
    rw [hd3, show getEntry (setCtrl (setEntry d2 i {}) i _) j =
        getEntry (setEntry d2 i {}) j from rfl]
    rw [getEntry_setEntry_ne d2 i j {} (fun h => hij h.symm)]
    exact hkeyj j
  have h3valj : ∀ j, j ≠ i → (getEntry d3 j).value = (getEntry d0 j).value := by
    intro j hij
    rw [hd3, show getEntry (setCtrl (setEntry d2 i {}) i _) j =
        getEntry (setEntry d2 i {}) j from rfl]
    rw [getEntry_setEntry_ne d2 i j {} (fun h => hij h.symm)]
    exact hvalj j
  have h3ctrli : getCtrl d3 i = SWISS_DELETED := by
    rw [hd3]
    exact getCtrl_setCtrl_self _ i _
      (show i < (setEntry d2 i ({} : DictEntry)).ctrl.length from hilenc)
  have h3ctrlj : ∀ j, j ≠ i → getCtrl d3 j = getCtrl d0 j := by
    intro j hij
    rw [hd3]
    rw [getCtrl_setCtrl_ne (setEntry d2 i {}) i j _ (fun h => hij h.symm)]
    exact hctrlj j
  have h3used : d3.used = d0.used := hused2
  have h3del : d3.deleted = d0.deleted := hdel2
  have h3cap : d3.capacity = d0.capacity := hcap2
  have hnok : ∀ j, j < d0.capacity → j ≠ i → (getEntry d0 j).key ≠ some k := by
    intro j hj hij hkj
    exact hij (hinv.key_distinct j hj i hi k hkj hikey)
  have hctrl0i : getCtrl d0 i = swiss_hash_to_ctrl (hf k) := hinv.ctrl_occ i hi k hikey
  have hfplt := swiss_hash_to_ctrl_lt (hf k)
  have hmono : ∀ q, getCtrl d0 q ≠ SWISS_EMPTY → getCtrl d3 q ≠ SWISS_EMPTY := by
    intro q hq0
    by_cases hqi : q = i
    · subst hqi
      rw [h3ctrli]
      unfold SWISS_EMPTY SWISS_DELETED
      omega
    · rw [h3ctrlj q hqi]
      exact hq0
  refine ⟨⟨?_, ?_, ?_, ?_, ?_, ?_, ?_, ?_, ?_, ?_, ?_⟩, h3used⟩
  · show 0 < d3.capacity
    omega
  · show d3.entries.length = d3.capacity
    have : d3.entries.length = d2.entries.length := by
      rw [hd3]
      show (d2.entries.set i {}).length = d2.entries.length
      rw [List.length_set]
    omega
  · show d3.ctrl.length = d3.capacity
    have : d3.ctrl.length = d2.ctrl.length := by
      rw [hd3]
      show ((setEntry d2 i {}).ctrl.set i SWISS_DELETED).length = d2.ctrl.length
      rw [List.length_set]
      rfl
    omega
  · -- ctrl_occ
    intro j hj x hkx
    replace hkx : (getEntry d3 j).key = some x := hkx
    replace hj : j < d3.capacity := hj
    rw [h3cap] at hj
    show getCtrl d3 j = swiss_hash_to_ctrl (hf x)
    by_cases hij : j = i
    · subst hij
      rw [h3keyi] at hkx
      exact Option.noConfusion hkx
    · rw [h3keyj j hij] at hkx
      rw [h3ctrlj j hij]
      exact hinv.ctrl_occ j hj x hkx
  · -- ctrl_free
    intro j hj hkx
    replace hkx : (getEntry d3 j).key = none := hkx
    replace hj : j < d3.capacity := hj
    rw [h3cap] at hj
    show getCtrl d3 j = SWISS_EMPTY ∨ getCtrl d3 j = SWISS_DELETED
    by_cases hij : j = i
    · subst hij
      rw [h3ctrli]
      exact Or.inr rfl
    · rw [h3keyj j hij] at hkx
      rw [h3ctrlj j hij]
      exact hinv.ctrl_free j hj hkx
  · -- key_distinct
    intro j1 hj1 j2 hj2 x hk1 hk2
    replace hk1 : (getEntry d3 j1).key = some x := hk1
    replace hk2 : (getEntry d3 j2).key = some x := hk2
    replace hj1 : j1 < d3.capacity := hj1
    replace hj2 : j2 < d3.capacity := hj2
    rw [h3cap] at hj1 hj2
    by_cases h1 : j1 = i
    · subst h1
      rw [h3keyi] at hk1
      exact Option.noConfusion hk1
    by_cases h2 : j2 = i
    · subst h2
      rw [h3keyi] at hk2
      exact Option.noConfusion hk2
    rw [h3keyj j1 h1] at hk1
    rw [h3keyj j2 h2] at hk2
    exact hinv.key_distinct j1 hj1 j2 hj2 x hk1 hk2
  · -- model_slot
    intro x j hj hkx
    replace hkx : (getEntry d3 j).key = some x := hkx
    replace hj : j < d3.capacity := hj
    rw [h3cap] at hj
    by_cases hij : j = i
    · subst hij
      rw [h3keyi] at hkx
      exact Option.noConfusion hkx
    · rw [h3keyj j hij] at hkx
      have hxk : x ≠ k := by
        intro h
        subst h
        exact hnok j hj hij hkx
      show (if x = k then none else m x) = some (getEntry d3 j).value
      rw [if_neg hxk, h3valj j hij]
      exact hinv.model_slot x j hj hkx
  · -- model_absent
    intro x hx
    replace hx : ∀ j, j < d3.capacity → (getEntry d3 j).key ≠ some x :=
      fun j hj => hx j hj
    rw [h3cap] at hx
    by_cases hxk : x = k
    · subst hxk
      show (if x = x then none else m x) = none
      rw [if_pos rfl]
    · show (if x = k then none else m x) = none
      rw [if_neg hxk]
      apply hinv.model_absent
      intro j hj hkj
      by_cases hij : j = i
      · subst hij
        rw [hikey] at hkj
        injection hkj with hkj
        exact hxk hkj.symm
      · apply hx j hj
        rw [h3keyj j hij]
        exact hkj
  · -- reach
    intro j hj x hkx
    replace hkx : (getEntry d3 j).key = some x := hkx
    replace hj : j < d3.capacity := hj
    rw [h3cap] at hj
    show ∃ n2 < d3.capacity, j = (hf x % d3.capacity + n2) % d3.capacity ∧
      ∀ t < n2, getCtrl d3 ((hf x % d3.capacity + t) % d3.capacity) ≠ SWISS_EMPTY
    rw [h3cap]
    by_cases hij : j = i
    · subst hij
      rw [h3keyi] at hkx
      exact Option.noConfusion hkx
    · rw [h3keyj j hij] at hkx
      obtain ⟨n2, hn2, h1, h2⟩ := hinv.reach j hj x hkx
      exact ⟨n2, hn2, h1, fun t ht => hmono _ (h2 t ht)⟩
  · -- used_eq
    show d3.used - 1 = countOcc { d3 with used := d3.used - 1, deleted := d3.deleted + 1 }
    have hco : countOcc { d3 with used := d3.used - 1, deleted := d3.deleted + 1 } =
        (List.range d0.capacity).countP (fun j => ((getEntry d3 j).key).isSome) := by
      have h1 : countOcc { d3 with used := d3.used - 1, deleted := d3.deleted + 1 } =
          (List.range d3.capacity).countP (fun j => ((getEntry d3 j).key).isSome) := rfl
      rw [h1, h3cap]
    rw [hco]
    have hflip := countP_range_set_flip d0.capacity i
      (fun j => ((getEntry d3 j).key).isSome)
      (fun j => ((getEntry d0 j).key).isSome)
      hi
      (by show ((getEntry d3 i).key).isSome = false; rw [h3keyi]; rfl)
      (by show ((getEntry d0 i).key).isSome = true; rw [hikey]; rfl)
      (by
        intro x hx
        show ((getEntry d3 x).key).isSome = ((getEntry d0 x).key).isSome
        rw [h3keyj x hx])
    have hc0 : (List.range d0.capacity).countP
        (fun j => ((getEntry d0 j).key).isSome) = countOcc d0 := rfl
    have hu := hinv.used_eq
    omega
  · -- del_eq
    show d3.deleted + 1 = countDel { d3 with used := d3.used - 1, deleted := d3.deleted + 1 }
    have hcd : countDel { d3 with used := d3.used - 1, deleted := d3.deleted + 1 } =
        (List.range d0.capacity).countP (fun j => getCtrl d3 j == SWISS_DELETED) := by
      have h1 : countDel { d3 with used := d3.used - 1, deleted := d3.deleted + 1 } =
          (List.range d3.capacity).countP (fun j => getCtrl d3 j == SWISS_DELETED) := rfl
      rw [h1, h3cap]
    rw [hcd]
    have hflip := countP_range_set_flip d0.capacity i
      (fun j => getCtrl d0 j == SWISS_DELETED)
      (fun j => getCtrl d3 j == SWISS_DELETED)
      hi
      (by
        show (getCtrl d0 i == SWISS_DELETED) = false
        rw [hctrl0i]
        unfold SWISS_DELETED
        simp
        omega)
      (by
        show (getCtrl d3 i == SWISS_DELETED) = true
        rw [h3ctrli]
        simp)
      (by
        intro x hx
        show (getCtrl d0 x == SWISS_DELETED) = (getCtrl d3 x == SWISS_DELETED)
        rw [h3ctrlj x hx])
    have hc0 : (List.range d0.capacity).countP
        (fun j => getCtrl d0 j == SWISS_DELETED) = countDel d0 := rfl
    have hd := hinv.del_eq
    omega

theorem setEntry_len (d : Dict) (i : Nat) (e : DictEntry) :
    (setEntry d i e).entries.length = d.entries.length := by
  show (d.entries.set i e).length = d.entries.length
  rw [List.length_set]

theorem keyval_setEntry_preserve (d : Dict) (i : Nat) (e : DictEntry)
    (hk : e.key = (getEntry d i).key) (hv : e.value = (getEntry d i).value) :
    ∀ j, (getEntry (setEntry d i e) j).key = (getEntry d j).key ∧
         (getEntry (setEntry d i e) j).value = (getEntry d j).value :=
  keyval_set_preserve d.entries i e hk hv

/-- `dict_delete_core` refines unbinding: deleting a bound key succeeds,
releases exactly the key's and value's shares, decrements `used`, and
preserves the invariant against the map with that key unbound; deleting
an unbound key leaves the table untouched and reports `KeyError`. -/
theorem dict_delete_core_INV (hf : Nat → Nat) (d0 : Dict) (m : Nat → Option Nat)
    (hinv : INV hf d0 m) (k : Nat) :
    (∀ v, m k = some v →
      (dict_delete_core hf d0 k).2.1 = DelResult.ok ∧
      (dict_delete_core hf d0 k).2.2 = [RefEff.rel k, RefEff.rel v] ∧
      (dict_delete_core hf d0 k).1.used + 1 = d0.used ∧
      INV hf (dict_delete_core hf d0 k).1 (fun x => if x = k then none else m x)) ∧
    (m k = none →
      (dict_delete_core hf d0 k).1 = d0 ∧
      (dict_delete_core hf d0 k).2.1 = DelResult.keyError) := by
  have hcap := hinv.cap_pos
  constructor
  · intro v hmv
    obtain ⟨i, hi, hkey, hval, hpr, _⟩ := dict_lookup_found hf d0 m hinv k v hmv
    have husedpos : 0 < d0.used := by
      rw [hinv.used_eq]
      exact List.countP_pos_iff.mpr ⟨i, List.mem_range.mpr hi, by
        show ((getEntry d0 i).key).isSome = true
        rw [hkey]
        rfl⟩
    cases hprev : (getEntry d0 i).prev with
    | some p =>
      cases hnext : (getEntry d0 i).next with
      | some nx =>
        have hcore : dict_delete_core hf d0 k =
            ({ setCtrl (setEntry (setEntry (setEntry d0 p
                  { getEntry d0 p with next := some nx }) nx
                  { getEntry (setEntry d0 p { getEntry d0 p with next := some nx }) nx
                    with prev := some p }) i {}) i SWISS_DELETED with
                used := (setCtrl (setEntry (setEntry (setEntry d0 p
                  { getEntry d0 p with next := some nx }) nx
                  { getEntry (setEntry d0 p { getEntry d0 p with next := some nx }) nx
                    with prev := some p }) i {}) i SWISS_DELETED).used - 1,
                deleted := (setCtrl (setEntry (setEntry (setEntry d0 p
                  { getEntry d0 p with next := some nx }) nx
                  { getEntry (setEntry d0 p { getEntry d0 p with next := some nx }) nx
                    with prev := some p }) i {}) i SWISS_DELETED).deleted + 1 },
             DelResult.ok, [RefEff.rel k, RefEff.rel v]) := by
          unfold dict_delete_core
          rw [hpr]
          simp only [hprev, hnext, hkey, hval, Option.getD_some]
        rw [hcore]
        refine ⟨rfl, rfl, ?_, ?_⟩
        · show d0.used - 1 + 1 = d0.used
          omega
        · set d1c := setEntry d0 p { getEntry d0 p with next := some nx } with hd1c
          set d2c := setEntry d1c nx { getEntry d1c nx with prev := some p } with hd2c
          have hkv1 := keyval_setEntry_preserve d0 p
            { getEntry d0 p with next := some nx } rfl rfl
          have hkv2 := keyval_setEntry_preserve d1c nx
            { getEntry d1c nx with prev := some p } rfl rfl
          have hkeyj : ∀ j, (getEntry d2c j).key = (getEntry d0 j).key := by
            intro j
            rw [hd2c, (hkv2 j).1]
            exact (hkv1 j).1
          have hvalj : ∀ j, (getEntry d2c j).value = (getEntry d0 j).value := by
            intro j
            rw [hd2c, (hkv2 j).2]
            exact (hkv1 j).2
          have hlen2e : d2c.entries.length = d0.capacity := by
            rw [hd2c, setEntry_len, hd1c, setEntry_len]
            exact hinv.len_entries
          exact (delete_mid_INV hf d0 m hinv k i d2c hi hkey rfl hlen2e
            hinv.len_ctrl rfl rfl hkeyj hvalj (fun j => rfl)).1
      | none =>
        have hcore : dict_delete_core hf d0 k =
            ({ setCtrl (setEntry ({ setEntry d0 p
                  { getEntry d0 p with next := none } with tail := some p }) i {})
                i SWISS_DELETED with
                used := (setCtrl (setEntry ({ setEntry d0 p
                  { getEntry d0 p with next := none } with tail := some p }) i {})
                  i SWISS_DELETED).used - 1,
                deleted := (setCtrl (setEntry ({ setEntry d0 p
                  { getEntry d0 p with next := none } with tail := some p }) i {})
                  i SWISS_DELETED).deleted + 1 },
             DelResult.ok, [RefEff.rel k, RefEff.rel v]) := by
          unfold dict_delete_core
          rw [hpr]
          simp only [hprev, hnext, hkey, hval, Option.getD_some]
        rw [hcore]
        refine ⟨rfl, rfl, ?_, ?_⟩
        · show d0.used - 1 + 1 = d0.used
          omega
        · set d1c := setEntry d0 p { getEntry d0 p with next := none } with hd1c
          set d2c : Dict := { d1c with tail := some p } with hd2c
          have hkv1 := keyval_setEntry_preserve d0 p
            { getEntry d0 p with next := none } rfl rfl
          have hkeyj : ∀ j, (getEntry d2c j).key = (getEntry d0 j).key := by
            intro j
            show (getEntry d1c j).key = (getEntry d0 j).key
            exact (hkv1 j).1
          have hvalj : ∀ j, (getEntry d2c j).value = (getEntry d0 j).value := by
            intro j
            show (getEntry d1c j).value = (getEntry d0 j).value
            exact (hkv1 j).2
          have hlen2e : d2c.entries.length = d0.capacity := by
            show d1c.entries.length = d0.capacity
            rw [hd1c, setEntry_len]
            exact hinv.len_entries
          exact (delete_mid_INV hf d0 m hinv k i d2c hi hkey rfl hlen2e
            hinv.len_ctrl rfl rfl hkeyj hvalj (fun j => rfl)).1
    | none =>
      cases hnext : (getEntry d0 i).next with
      | some nx =>
        have hcore : dict_delete_core hf d0 k =
            ({ setCtrl (setEntry (setEntry ({ d0 with head := some nx }) nx
                  { getEntry ({ d0 with head := some nx }) nx with prev := none })
                  i {}) i SWISS_DELETED with
                used := (setCtrl (setEntry (setEntry ({ d0 with head := some nx }) nx
                  { getEntry ({ d0 with head := some nx }) nx with prev := none })
                  i {}) i SWISS_DELETED).used - 1,
                deleted := (setCtrl (setEntry (setEntry ({ d0 with head := some nx }) nx
                  { getEntry ({ d0 with head := some nx }) nx with prev := none })
                  i {}) i SWISS_DELETED).deleted + 1 },
             DelResult.ok, [RefEff.rel k, RefEff.rel v]) := by
          unfold dict_delete_core
          rw [hpr]
          simp only [hprev, hnext, hkey, hval, Option.getD_some]
        rw [hcore]
        refine ⟨rfl, rfl, ?_, ?_⟩
        · show d0.used - 1 + 1 = d0.used
          omega
        · set d1c : Dict := { d0 with head := some nx } with hd1c
          set d2c := setEntry d1c nx { getEntry d1c nx with prev := none } with hd2c
          have hkv2 := keyval_setEntry_preserve d1c nx
            { getEntry d1c nx with prev := none } rfl rfl
          have hkeyj : ∀ j, (getEntry d2c j).key = (getEntry d0 j).key := by
            intro j
            rw [hd2c]
            exact (hkv2 j).1
          have hvalj : ∀ j, (getEntry d2c j).value = (getEntry d0 j).value := by
            intro j
            rw [hd2c]
            exact (hkv2 j).2
          have hlen2e : d2c.entries.length = d0.capacity := by
            rw [hd2c, setEntry_len]
            exact hinv.len_entries
          exact (delete_mid_INV hf d0 m hinv k i d2c hi hkey rfl hlen2e
            hinv.len_ctrl rfl rfl hkeyj hvalj (fun j => rfl)).1
      | none =>
        have hcore : dict_delete_core hf d0 k =
            ({ setCtrl (setEntry ({ { d0 with head := none } with tail := none }) i {})
                i SWISS_DELETED with
                used := (setCtrl (setEntry ({ { d0 with head := none } with
                  tail := none }) i {}) i SWISS_DELETED).used - 1,
                deleted := (setCtrl (setEntry ({ { d0 with head := none } with
                  tail := none }) i {}) i SWISS_DELETED).deleted + 1 },
             DelResult.ok, [RefEff.rel k, RefEff.rel v]) := by
          unfold dict_delete_core
          rw [hpr]
          simp only [hprev, hnext, hkey, hval, Option.getD_some]
        rw [hcore]
        refine ⟨rfl, rfl, ?_, ?_⟩
        · show d0.used - 1 + 1 = d0.used
          omega
        · set d2c : Dict := { { d0 with head := none } with tail := none } with hd2c
          have hkeyj : ∀ j, (getEntry d2c j).key = (getEntry d0 j).key := fun j => rfl
          have hvalj : ∀ j, (getEntry d2c j).value = (getEntry d0 j).value :=
            fun j => rfl
          exact (delete_mid_INV hf d0 m hinv k i d2c hi hkey rfl hinv.len_entries
            hinv.len_ctrl rfl rfl hkeyj hvalj (fun j => rfl)).1
  · intro hmk
    have hlook := dict_lookup_absent hf d0 m hinv k hmk
    unfold dict_lookup at hlook
    cases hpr : swiss_probe d0 (hf k) (swiss_hash_to_ctrl (hf k)) k with
    | none =>
      constructor
      · unfold dict_delete_core
        rw [hpr]
      · unfold dict_delete_core
        rw [hpr]
    | some r =>
      obtain ⟨j, b⟩ := r
      cases b with
      | true =>
        exfalso
        rw [hpr] at hlook
        exact Option.noConfusion hlook
      | false =>
        constructor
        · unfold dict_delete_core
          rw [hpr]
        · unfold dict_delete_core
          rw [hpr]

/-- `dict_delete` (rehash check included) refines unbinding. -/
theorem dict_delete_INV (hf : Nat → Nat) (d : Dict) (m : Nat → Option Nat)
    (hinv : INV hf d m) (k : Nat) :
    (∀ v, m k = some v →
      (dict_delete hf d k).2.1 = DelResult.ok ∧
      (dict_delete hf d k).2.2 = [RefEff.rel k, RefEff.rel v] ∧
      (dict_delete hf d k).1.used + 1 = d.used ∧
      INV hf (dict_delete hf d k).1 (fun x => if x = k then none else m x)) ∧
    (m k = none →
      (dict_delete hf d k).2.1 = DelResult.keyError ∧
      INV hf (dict_delete hf d k).1 m) := by
  unfold dict_delete
  by_cases hres : d.used * 2 < d.capacity ∧ d.deleted > d.capacity / 4
  · rw [if_pos hres]
    obtain ⟨hinv2, hcap2, hused2, hdel2⟩ := dict_resize_INV hf d m hinv d.capacity
    have hc := dict_delete_core_INV hf (dict_resize hf d d.capacity) m hinv2 k
    constructor
    · intro v hmv
      obtain ⟨h1, h2, h3, h4⟩ := hc.1 v hmv
      exact ⟨h1, h2, by omega, h4⟩
    · intro hmk
      obtain ⟨heq, herr⟩ := hc.2 hmk
      refine ⟨herr, ?_⟩
      rw [heq]
      exact hinv2
  · rw [if_neg hres]
    have hc := dict_delete_core_INV hf d m hinv k
    refine ⟨hc.1, ?_⟩
    intro hmk
    obtain ⟨heq, herr⟩ := hc.2 hmk
    refine ⟨herr, ?_⟩
    rw [heq]
    exact hinv

/-- A fresh table satisfies the invariant against the empty map. -/
theorem dict_new_INV (hf : Nat → Nat) : INV hf dict_new (fun _ => none) := by
  have hkey : ∀ i, i < 8 → (getEntry dict_new i).key = none := by
    intro i hi
    show ((List.replicate 8 ({} : DictEntry)).getD i {}).key = none
    rw [getD_replicate_entry 8 i hi]
  have hctrl : ∀ i, i < 8 → getCtrl dict_new i = SWISS_EMPTY := by
    intro i hi
    show (List.replicate 8 SWISS_EMPTY).getD i 0 = SWISS_EMPTY
    rw [getD_replicate 8 i SWISS_EMPTY 0 hi]
  refine ⟨by decide, by decide, by decide, ?_, ?_, ?_, ?_, ?_, ?_, by decide, by decide⟩
  · intro i hi x hk
    rw [hkey i hi] at hk
    exact Option.noConfusion hk
  · intro i hi _
    exact Or.inl (hctrl i hi)
  · intro i hi j hj x hki
    rw [hkey i hi] at hki
    exact Option.noConfusion hki
  · intro x i hi hk
    rw [hkey i hi] at hk
    exact Option.noConfusion hk
  · intro x _
    rfl
  · intro i hi x hk
    rw [hkey i hi] at hk
    exact Option.noConfusion hk

/-- The invariant holds between every table built by a history of
operations and the abstract map of that history. -/
theorem dictRun_INV (hf : Nat → Nat) (ops : List DictOp) :
    INV hf (dictRun hf ops) (modelRun ops) := by
  have main : ∀ (l : List DictOp) (d : Dict) (m : Nat → Option Nat), INV hf d m →
      INV hf (l.foldl (dictStep hf) d) (l.foldl modelStep m) := by
    intro l
    induction l with
    | nil => intro d m h; exact h
    | cons op rest ih =>
      intro d m h
      rw [List.foldl_cons, List.foldl_cons]
      apply ih
      cases op with
      | set k v =>
        exact (dict_insert_INV hf d m h k v).1
      | del k =>
        cases hmk : m k with
        | some v =>
          exact ((dict_delete_INV hf d m h k).1 v hmk).2.2.2
        | none =>
          have h2 := ((dict_delete_INV hf d m h k).2 hmk).2
          have heq : modelStep m (DictOp.del k) = m := by
            funext x
            show (if x = k then none else m x) = m x
            by_cases hx : x = k
            · rw [if_pos hx, hx, hmk]
            · rw [if_neg hx]
          rw [heq]
          exact h2
  exact main ops dict_new (fun _ => none) (dict_new_INV hf)

/-- A key yielded by a walk of the insertion-order list is the key of
some slot. -/
theorem walkList_mem (d : Dict) (fuel : Nat) (cur : Option Nat) (k : Nat)
    (h : some k ∈ walkList d fuel cur) :
    ∃ i, (getEntry d i).key = some k := by
  induction fuel generalizing cur with
  | zero => cases cur <;> exact absurd h (List.not_mem_nil _)
  | succ n ih =>
    cases cur with
    | none => exact absurd h (List.not_mem_nil _)
    | some i =>
      rw [show walkList d (n + 1) (some i) =
        (getEntry d i).key :: walkList d n (getEntry d i).next from rfl] at h
      cases List.mem_cons.mp h with
      | inl he => exact ⟨i, he.symm⟩
      | inr ht => exact ih _ ht

/-- C1: for every table built from `new()` by a sequence of `set` and
`del` operations and every key `k` bound at least once and not deleted
after its last binding, `get` returns the value `v` of the most recent
`set` of `k` and acquires one share of `v` for the caller. -/
theorem c1_get_returns_last_bound_value (hf : Nat → Nat) (ops : List DictOp)
    (k v : Nat) (h : modelRun ops k = some v) :
    dict_subscript hf (dictRun hf ops) k =
      (dictRun hf ops, some v, [RefEff.acq v]) := by
  have hinv := dictRun_INV hf ops
  obtain ⟨i, hi, hkey, hval, hpr, hlook⟩ :=
    dict_lookup_found hf (dictRun hf ops) (modelRun ops) hinv k v h
  unfold dict_subscript
  rw [hlook]

/-- Witness for C1: identity hash, the history `c1ops` (bind 1, delete
1, bind 3 twice, last to 5). -/
theorem c1_get_returns_last_bound_value_witness :
    modelRun c1ops 3 = some 5 ∧
    dict_subscript id (dictRun id c1ops) 3 =
      (dictRun id c1ops, some 5, [RefEff.acq 5]) :=
  ⟨by decide, c1_get_returns_last_bound_value id c1ops 3 5 (by decide)⟩

/-- C4 (amended): for the *ordered dict* (`dict_delete` of
`dictobject.c`) deletion behaves as claimed — on every reachable table,
deleting a bound key succeeds, releases exactly the key's and the
value's shares, decrements `used`, removes the binding (a subsequent
`get` misses and iteration no longer yields the key); deleting an
unbound key reports `KeyError`; and the result is never
`NotImplementedError`.  (The SwissDict variants reject all deletions
with `NotImplementedError`; see the counterexample.) -/
theorem c4_amended_ordered_delete_supported (hf : Nat → Nat) (ops : List DictOp)
    (k : Nat) :
    (∀ v, modelRun ops k = some v →
      (dict_delete hf (dictRun hf ops) k).2.1 = DelResult.ok ∧
      (dict_delete hf (dictRun hf ops) k).2.2 = [RefEff.rel k, RefEff.rel v] ∧
      (dict_delete hf (dictRun hf ops) k).1.used + 1 = (dictRun hf ops).used ∧
      dict_lookup hf (dict_delete hf (dictRun hf ops) k).1 k = none ∧
      some k ∉ keysInOrder (dict_delete hf (dictRun hf ops) k).1) ∧
    (modelRun ops k = none →
      (dict_delete hf (dictRun hf ops) k).2.1 = DelResult.keyError) ∧
    (dict_delete hf (dictRun hf ops) k).2.1 ≠ DelResult.notImplementedError := by
  have hinv := dictRun_INV hf ops
  have hc := dict_delete_INV hf (dictRun hf ops) (modelRun ops) hinv k
  refine ⟨?_, ?_, ?_⟩
  · intro v hmv
    obtain ⟨h1, h2, h3, h4⟩ := hc.1 v hmv
    refine ⟨h1, h2, h3, ?_, ?_⟩
    · exact dict_lookup_absent hf _ _ h4 k (by rw [if_pos rfl])
    · intro hmem
      obtain ⟨i, hk⟩ := walkList_mem _ _ _ k hmem
      have hilen : i < (dict_delete hf (dictRun hf ops) k).1.entries.length := by
        by_contra hge
        push_neg at hge
        rw [show getEntry (dict_delete hf (dictRun hf ops) k).1 i =
          (dict_delete hf (dictRun hf ops) k).1.entries.getD i {} from rfl] at hk
        rw [List.getD_eq_default _ _ hge] at hk
        exact Option.noConfusion hk
      have hicap : i < (dict_delete hf (dictRun hf ops) k).1.capacity := by
        rw [← h4.len_entries]
        exact hilen
      have hms := h4.model_slot k i hicap hk
      rw [if_pos rfl] at hms
      exact Option.noConfusion hms
  · intro hmk
    exact (hc.2 hmk).1
  · cases hmk : modelRun ops k with
    | some v =>
      rw [(hc.1 v hmk).1]
      exact fun hcon => DelResult.noConfusion hcon
    | none =>
      rw [(hc.2 hmk).1]
      exact fun hcon => DelResult.noConfusion hcon

/-- Witness for the amended C4: identity hash, history `c1ops`; deleting
the bound key 3 succeeds and removes it from iteration. -/
theorem c4_amended_ordered_delete_supported_witness :
    modelRun c1ops 3 = some 5 ∧
    (dict_delete id (dictRun id c1ops) 3).2.1 = DelResult.ok ∧
    some 3 ∉ keysInOrder (dict_delete id (dictRun id c1ops) 3).1 :=
  ⟨by decide,
   ((c4_amended_ordered_delete_supported id c1ops 3).1 5 (by decide)).1,
   ((c4_amended_ordered_delete_supported id c1ops 3).1 5 (by decide)).2.2.2.2⟩

/-- The group loop of the simple variant's lookup stops at an *entirely*
empty group: a visited group with all-ones empty mask in which the key
was not found is the last group visited, and the result is `KeyError`. -/
theorem lookupGo_empty_group_stops (d : SimpleDict) (k hash h2 : Nat)
    (gs : List Nat) (g : Nat)
    (hg : g ∈ (simpleLookupGo d k hash h2 gs).1)
    (hnf : simpleFindInGroup (d.groups.getD g default) k hash h2 = none)
    (hemp : emptyMask (d.groups.getD g default) = 65535) :
    (simpleLookupGo d k hash h2 gs).1.getLast? = some g ∧
    (simpleLookupGo d k hash h2 gs).2 = SLookupRes.keyError := by
  induction gs with
  | nil => exact absurd hg (List.not_mem_nil _)
  | cons g1 rest ih =>
    cases hfind : simpleFindInGroup (d.groups.getD g1 default) k hash h2 with
    | some j =>
      have hstep : simpleLookupGo d k hash h2 (g1 :: rest) =
          ([g1], SLookupRes.found ((d.groups.getD g1 default).values.getD j 0)) := by
        simp only [simpleLookupGo, hfind]
      rw [hstep] at hg
      have hgg := List.mem_singleton.mp hg
      rw [hgg, hfind] at hnf
      exact Option.noConfusion hnf
    | none =>
      by_cases hev : emptyMask (d.groups.getD g1 default) = 65535
      · have hstep : simpleLookupGo d k hash h2 (g1 :: rest) =
            ([g1], SLookupRes.keyError) := by
          simp only [simpleLookupGo, hfind]
          rw [if_pos hev]
        rw [hstep] at hg
        rw [hstep]
        have hgg := List.mem_singleton.mp hg
        rw [hgg]
        exact ⟨rfl, rfl⟩
      · have hstep : simpleLookupGo d k hash h2 (g1 :: rest) =
            (g1 :: (simpleLookupGo d k hash h2 rest).1,
             (simpleLookupGo d k hash h2 rest).2) := by
          simp only [simpleLookupGo, hfind]
          rw [if_neg hev]
        rw [hstep] at hg
        rw [hstep]
        cases List.mem_cons.mp hg with
        | inl hgg =>
          rw [hgg] at hemp
          exact absurd hemp hev
        | inr hmem =>
          obtain ⟨h1, h2x⟩ := ih hmem
          refine ⟨?_, h2x⟩
          cases hr : (simpleLookupGo d k hash h2 rest).1 with
          | nil =>
            rw [hr] at h1
            exact Option.noConfusion h1
          | cons b tl =>
            show (g1 :: b :: tl).getLast? = some g
            rw [List.getLast?_cons_cons]
            rw [hr] at h1
            exact h1

/-- C5 (amended): during lookup in the simple SIMD variant, a visited
group in which the key was not found stops the probe only when the
group's `empty()` mask is *all ones* (`0xFFFF`: the group is entirely
empty); that group is then the last one visited and the lookup reports
`KeyError`.  A merely nonzero empty mask does not stop the scan (see the
counterexample). -/
theorem c5_amended_lookup_stops_at_all_empty_group (hf : Nat → Nat)
    (d : SimpleDict) (k g : Nat)
    (hg : g ∈ (simple_subscript hf d k).1)
    (hnf : simpleFindInGroup (d.groups.getD g default) k (hf k)
      ((hf k >>> 8) % 128) = none)
    (hemp : emptyMask (d.groups.getD g default) = 65535) :
    (simple_subscript hf d k).1.getLast? = some g ∧
    (simple_subscript hf d k).2 = SLookupRes.keyError :=
  lookupGo_empty_group_stops d k (hf k) ((hf k >>> 8) % 128)
    (List.range d.num_groups) g hg hnf hemp

/-- Witness for the amended C5: a fresh one-group table; looking up the
absent key 5 visits group 0, which is entirely empty, and stops there
with `KeyError`. -/
theorem c5_amended_lookup_stops_witness :
    (0 ∈ (simple_subscript id simple_new 5).1) ∧
    (simple_subscript id simple_new 5).1.getLast? = some 0 ∧
    (simple_subscript id simple_new 5).2 = SLookupRes.keyError :=
  ⟨by decide,
   (c5_amended_lookup_stops_at_all_empty_group id simple_new 5 0 (by decide)
     (by decide) (by decide)).1,
   (c5_amended_lookup_stops_at_all_empty_group id simple_new 5 0 (by decide)
     (by decide) (by decide)).2⟩

/-- C6 (amended): the locate engine of `swissdictobject.c` derives the
fingerprint as `h2 = (hash >> 8) & 0x7F` — always `< 0x80`, so it never
collides with a reserved marker — starts at group `g0 = hash %
num_groups`, and advances *linearly* (`group_idx = (h1 + i) %
num_groups`): the probe order is `(hash % G + idx) % G` for `idx = 0, …,
G - 1`, visiting every group exactly once. -/
theorem c6_amended_probe_start_and_order (hash G : Nat) (hG : 0 < G) :
    (sdictProbeSeq hash G).length = G ∧
    (sdictProbeSeq hash G).Nodup ∧
    (∀ g, g < G → g ∈ sdictProbeSeq hash G) ∧
    (∀ idx, idx < G → (sdictProbeSeq hash G).getD idx G = (hash % G + idx) % G) ∧
    sdictH2 hash = (hash >>> 8) % 128 ∧
    sdictH2 hash < 128 := by
  refine ⟨?_, ?_, ?_, ?_, rfl, Nat.mod_lt _ (by norm_num)⟩
  · unfold sdictProbeSeq
    rw [List.length_map, List.length_range]
  · unfold sdictProbeSeq
    refine List.Nodup.map_on ?_ (List.nodup_range G)
    intro x hx y hy hf2
    exact add_mod_inj (sdictH1 hash G) G x y
      (List.mem_range.mp hx) (List.mem_range.mp hy) hf2
  · intro g hg
    unfold sdictProbeSeq
    refine List.mem_map.mpr ⟨(g + G - hash % G) % G,
      List.mem_range.mpr (Nat.mod_lt _ hG), ?_⟩
    exact add_mod_cycle (hash % G) g G (Nat.mod_lt _ hG) hg
  · intro idx hidx
    unfold sdictProbeSeq
    rw [List.getD_eq_getElem?_getD, List.getElem?_map, List.getElem?_range hidx]
    rfl

/-- Witness for the amended C6 at `hash = 5`, four groups. -/
theorem c6_amended_probe_witness :
    (sdictProbeSeq 5 4).length = 4 ∧
    (sdictProbeSeq 5 4).getD 2 4 = (5 % 4 + 2) % 4 :=
  ⟨(c6_amended_probe_start_and_order 5 4 (by decide)).1,
   (c6_amended_probe_start_and_order 5 4 (by decide)).2.2.2.1 2 (by decide)⟩

/-- C7 (amended): the ordered dict's iterator holds no version snapshot
(`PyDictObject` has no version field and `dict_iter` stores only a
cursor), and `dictiter_next` performs no modification check.  After
creating an iterator over a nonempty reachable table and then inserting
a *new* key (no resize triggered), `next()` yields the key at the head
of the insertion-order list as a normal element — never a
concurrent-modification report. -/
theorem c7_amended_next_yields_head (hf : Nat → Nat) (d : Dict)
    (m : Nat → Option Nat) (hinv : INV hf d m) (k v i t k0 : Nat)
    (hnores : ¬ 8 * (d.used + d.deleted) > 7 * d.capacity)
    (hnew : m k = none)
    (hhead : d.head = some i)
    (htail : d.tail = some t)
    (hk0 : (getEntry d i).key = some k0) :
    (dictiter_next (dict_insert hf d k v).1 (dict_iter d)).1 = some k0 := by
  have hcap := hinv.cap_pos
  have hroom : countOcc d + countDel d < d.capacity := by
    have h1 := hinv.used_eq
    have h2 := hinv.del_eq
    omega
  have hi : i < d.capacity := by
    by_contra hge
    push_neg at hge
    have hdefault : (getEntry d i).key = none := by
      show (d.entries.getD i {}).key = none
      rw [List.getD_eq_default _ _ (by rw [hinv.len_entries]; omega)]
    rw [hdefault] at hk0
    exact Option.noConfusion hk0
  have hs : hf k % d.capacity < d.capacity := Nat.mod_lt _ hcap
  unfold dict_insert
  rw [if_neg hnores]
  cases hpr : swiss_probe d (hf k) (swiss_hash_to_ctrl (hf k)) k with
  | none => exact absurd hpr (swiss_probe_ne_none hf d m hinv _ _ k hroom)
  | some r =>
    obtain ⟨j, b⟩ := r
    cases b with
    | true =>
      obtain ⟨hj, _, hkeyj⟩ := probeLoop_true_sound d _ k hcap d.capacity _ j hs hpr
      have hcon := hinv.model_slot k j hj hkeyj
      rw [hnew] at hcon
      exact Option.noConfusion hcon
    | false =>
      obtain ⟨n, hn, hjeq, hjempty, _⟩ :=
        probeLoop_false_sound d _ k hcap d.capacity _ j hs hpr
      have hji : j ≠ i := by
        intro hcon
        have hctrli := hinv.ctrl_occ i hi k0 hk0
        rw [hcon, hctrli] at hjempty
        have hlt := swiss_hash_to_ctrl_lt (hf k0)
        unfold SWISS_EMPTY at hjempty
        omega
      set ne1 : DictEntry :=
        { key := some k, value := v, prev := d.tail, next := none } with hne1
      set d1x : Dict :=
        setCtrl (setEntry d j ne1) j (swiss_hash_to_ctrl (hf k)) with hd1x
      set d2x : Dict := setEntry d1x t { getEntry d1x t with next := some j } with hd2x
      have hcore : (dict_insert_core hf d k v).1 =
          { d2x with tail := some j, used := d2x.used + 1 } := by
        unfold dict_insert_core
        rw [hpr]
        simp only [htail, hd2x, hd1x, hne1]
      rw [show dict_iter d = some i from by unfold dict_iter; rw [hhead]]
      rw [hcore]
      show (getEntry { d2x with tail := some j, used := d2x.used + 1 } i).key = some k0
      have e1 : getEntry { d2x with tail := some j, used := d2x.used + 1 } i =
          getEntry d2x i := rfl
      rw [e1, hd2x,
        (keyval_setEntry_preserve d1x t { getEntry d1x t with next := some j }
          rfl rfl i).1]
      have e3 : getEntry d1x i = getEntry (setEntry d j ne1) i := rfl
      rw [e3, getEntry_setEntry_ne d j i ne1 hji]
      exact hk0

/-- Witness for the amended C7: identity hash, the five-key history
`c7ops` (keys 10–14, head slot 2, tail slot 6); inserting the new key 15
and then calling `next()` yields the first inserted key 10. -/
theorem c7_amended_next_yields_head_witness :
    (dictiter_next (dict_insert id (dictRun id c7ops) 15 6).1
        (dict_iter (dictRun id c7ops))).1 = some 10 :=
  c7_amended_next_yields_head id (dictRun id c7ops) (modelRun c7ops)
    (dictRun_INV id c7ops) 15 6 2 6 10 (by decide) (by decide) (by decide)
    (by decide) (by decide)

/-! ## The simple variant's load-factor invariant (C8) -/

theorem growCapLoop_spec : ∀ (fuel c m : Nat), 1 ≤ c → m ≤ c * 2 ^ fuel →
    c ≤ growCapLoop fuel c m ∧ m ≤ growCapLoop fuel c m ∧
    ∃ j, growCapLoop fuel c m = c * 2 ^ j := by
  intro fuel
  induction fuel with
  | zero =>
    intro c m hc hm
    have h0 : growCapLoop 0 c m = c := rfl
    have h1 : c * 2 ^ 0 = c := by ring
    exact ⟨by omega, by omega, 0, by omega⟩
  | succ f ih =>
    intro c m hc hm
    by_cases hlt : c < m
    · have hstep : growCapLoop (f + 1) c m = growCapLoop f (c * 2) m := by
        show (if c < m then growCapLoop f (c * 2) m else c) = growCapLoop f (c * 2) m
        rw [if_pos hlt]
      have hpow : c * 2 ^ (f + 1) = c * 2 * 2 ^ f := by ring
      obtain ⟨h1, h2, j, h3⟩ := ih (c * 2) m (by omega) (by omega)
      refine ⟨by omega, by omega, j + 1, ?_⟩
      rw [hstep, h3]
      ring
    · have hstep : growCapLoop (f + 1) c m = c := by
        show (if c < m then growCapLoop f (c * 2) m else c) = c
        rw [if_neg hlt]
      rw [hstep]
      refine ⟨Nat.le_refl _, by omega, 0, ?_⟩
      show c = c * 2 ^ 0
      ring

theorem calcNewCapacity_ge (start minSize : Nat) (hs : 1 ≤ start) :
    start ≤ calcNewCapacity start minSize ∧
    minSize ≤ calcNewCapacity start minSize ∧
    ∃ j, calcNewCapacity start minSize = start * 2 ^ j := by
  unfold calcNewCapacity
  refine growCapLoop_spec minSize start minSize hs ?_
  have h1 : minSize < 2 ^ minSize := Nat.lt_two_pow minSize
  have h2 : 2 ^ minSize ≤ start * 2 ^ minSize := Nat.le_mul_of_pos_left _ hs
  omega

theorem simpleInsertGo_fields (d : SimpleDict) (h2 k v hash : Nat) :
    ∀ (l : List Nat) (d2 : SimpleDict), simpleInsertGo d h2 k v hash l = some d2 →
      d2.capacity = d.capacity ∧ d2.used = d.used ∧ d2.num_groups = d.num_groups := by
  intro l
  induction l with
  | nil =>
    intro d2 h
    exact Option.noConfusion h
  | cons g rest ih =>
    intro d2 h
    by_cases hav : availableMask (d.groups.getD g default) ≠ 0
    · simp only [simpleInsertGo] at h
      rw [if_pos hav] at h
      injection h with h
      rw [← h]
      exact ⟨rfl, rfl, rfl⟩
    · simp only [simpleInsertGo] at h
      rw [if_neg hav] at h
      exact ih d2 h

theorem simple_insert_fields (d : SimpleDict) (k v hash : Nat) (d2 : SimpleDict)
    (h : simple_insert_into_table d k v hash = some d2) :
    d2.capacity = d.capacity ∧ d2.used = d.used ∧ d2.num_groups = d.num_groups :=
  simpleInsertGo_fields d ((hash >>> 8) % 128) k v hash (List.range d.num_groups) d2 h

theorem noTomb_set (l : List Nat) (pos x : Nat) (hx : x ≠ SWISS_DELETED)
    (hl : ∀ j, l.getD j 0 ≠ SWISS_DELETED) :
    ∀ j, (l.set pos x).getD j 0 ≠ SWISS_DELETED := by
  intro j
  by_cases hpos : pos < l.length
  · by_cases hj : j = pos
    · rw [hj, getD_set_self' l pos x 0 hpos]
      exact hx
    · rw [getD_set_ne' l pos j x 0 hj]
      exact hl j
  · rw [List.set_eq_of_length_le (by omega)]
    exact hl j

theorem emptyGroup_noTomb : ∀ j, emptyGroup.control.getD j 0 ≠ SWISS_DELETED := by
  intro j
  show (List.replicate 16 SWISS_EMPTY).getD j 0 ≠ SWISS_DELETED
  by_cases hj : j < 16
  · rw [getD_replicate 16 j SWISS_EMPTY 0 hj]
    decide
  · rw [List.getD_eq_default _ _ (by rw [List.length_replicate]; omega)]
    decide

theorem noTomb_getD (gs : List SGroup) (g : Nat)
    (hP : ∀ x ∈ gs, ∀ j, x.control.getD j 0 ≠ SWISS_DELETED) :
    ∀ j, ((gs.getD g default).control).getD j 0 ≠ SWISS_DELETED := by
  intro j
  by_cases hg : g < gs.length
  · rw [List.getD_eq_getElem gs default hg]
    exact hP _ (List.getElem_mem hg) j
  · rw [List.getD_eq_default gs default (by omega)]
    exact emptyGroup_noTomb j

theorem simpleInsertGo_noTomb (d : SimpleDict) (h2 k v hash : Nat)
    (hh2 : h2 ≠ SWISS_DELETED)
    (hP : ∀ x ∈ d.groups, ∀ j, x.control.getD j 0 ≠ SWISS_DELETED) :
    ∀ (l : List Nat) (d2 : SimpleDict), simpleInsertGo d h2 k v hash l = some d2 →
      ∀ x ∈ d2.groups, ∀ j, x.control.getD j 0 ≠ SWISS_DELETED := by
  intro l
  induction l with
  | nil =>
    intro d2 h
    exact Option.noConfusion h
  | cons g rest ih =>
    intro d2 h
    by_cases hav : availableMask (d.groups.getD g default) ≠ 0
    · simp only [simpleInsertGo] at h
      rw [if_pos hav] at h
      injection h with h
      rw [← h]
      intro x hx j
      cases List.mem_or_eq_of_mem_set hx with
      | inl hmem => exact hP x hmem j
      | inr heq =>
        rw [heq]
        exact noTomb_set _ _ _ hh2 (noTomb_getD d.groups g hP) j
    · simp only [simpleInsertGo] at h
      rw [if_neg hav] at h
      exact ih d2 h

theorem simple_insert_noTomb (d : SimpleDict) (k v hash : Nat) (d2 : SimpleDict)
    (hP : ∀ x ∈ d.groups, ∀ j, x.control.getD j 0 ≠ SWISS_DELETED)
    (h : simple_insert_into_table d k v hash = some d2) :
    ∀ x ∈ d2.groups, ∀ j, x.control.getD j 0 ≠ SWISS_DELETED := by
  refine simpleInsertGo_noTomb d ((hash >>> 8) % 128) k v hash ?_ hP
    (List.range d.num_groups) d2 h
  have : (hash >>> 8) % 128 < 128 := Nat.mod_lt _ (by norm_num)
  unfold SWISS_DELETED
  omega

theorem simpleReinsert_props (old : List SGroup) :
    ∀ (ps : List (Nat × Nat)) (acc d1 : SimpleDict),
      simpleReinsert old acc ps = some d1 →
      (∀ x ∈ acc.groups, ∀ j, x.control.getD j 0 ≠ SWISS_DELETED) →
      d1.capacity = acc.capacity ∧ d1.used = acc.used ∧
      d1.num_groups = acc.num_groups ∧
      (∀ x ∈ d1.groups, ∀ j, x.control.getD j 0 ≠ SWISS_DELETED) := by
  intro ps
  induction ps with
  | nil =>
    intro acc d1 h hP
    injection h with h
    rw [← h]
    exact ⟨rfl, rfl, rfl, hP⟩
  | cons p rest ih =>
    obtain ⟨g, i⟩ := p
    intro acc d1 h hP
    cases hk : (old.getD g default).keys.getD i none with
    | none =>
      simp only [simpleReinsert, hk] at h
      exact ih acc d1 h hP
    | some k =>
      simp only [simpleReinsert, hk] at h
      cases hins : simple_insert_into_table acc k ((old.getD g default).values.getD i 0)
          ((old.getD g default).hashes.getD i 0) with
      | none =>
        rw [hins] at h
        exact Option.noConfusion h
      | some acc1 =>
        rw [hins] at h
        obtain ⟨f1, f2, f3⟩ := simple_insert_fields acc k _ _ acc1 hins
        have hP1 := simple_insert_noTomb acc k _ _ acc1 hP hins
        obtain ⟨g1, g2, g3, g4⟩ := ih acc1 d1 h hP1
        exact ⟨by omega, by omega, by omega, g4⟩

/-- The state `simple_resize` leaves behind: on failure the counters and
capacity are those of the input (given `capacity = num_groups * 16`); on
success the new capacity is at least `min_size` and at least one
group. -/
theorem simple_resize_state (d : SimpleDict) (ms : Nat) (a : Bool)
    (hcapg : d.capacity = d.num_groups * 16)
    (hP : ∀ x ∈ d.groups, ∀ j, x.control.getD j 0 ≠ SWISS_DELETED) :
    ((simple_resize d ms a).2 = false →
      (simple_resize d ms a).1.capacity = d.capacity ∧
      (simple_resize d ms a).1.used = d.used ∧
      (simple_resize d ms a).1.num_groups = d.num_groups ∧
      (simple_resize d ms a).1.groups = d.groups) ∧
    ((simple_resize d ms a).2 = true →
      (simple_resize d ms a).1.capacity = (simple_resize d ms a).1.num_groups * 16 ∧
      1 ≤ (simple_resize d ms a).1.num_groups ∧
      (simple_resize d ms a).1.used = d.used ∧
      ms ≤ (simple_resize d ms a).1.capacity ∧
      16 ≤ (simple_resize d ms a).1.capacity ∧
      (∀ x ∈ (simple_resize d ms a).1.groups, ∀ j,
        x.control.getD j 0 ≠ SWISS_DELETED)) := by
  obtain ⟨hstart, hms, j, hj⟩ := calcNewCapacity_ge 16 ms (by omega)
  cases a with
  | false =>
    have hstep : simple_resize d ms false = (d, false) := by
      unfold simple_resize
      rw [if_neg (by decide)]
    rw [hstep]
    exact ⟨fun _ => ⟨rfl, rfl, rfl, rfl⟩, fun h => Bool.noConfusion h⟩
  | true =>
    have hbaseP : ∀ x ∈ (List.replicate (calcNewCapacity 16 ms / 16) emptyGroup),
        ∀ jj, x.control.getD jj 0 ≠ SWISS_DELETED := by
      intro x hx jj
      rw [(List.mem_replicate.mp hx).2]
      exact emptyGroup_noTomb jj
    cases hre : simpleReinsert d.groups
        { d with
          capacity := calcNewCapacity 16 ms,
          num_groups := calcNewCapacity 16 ms / 16,
          groups := List.replicate (calcNewCapacity 16 ms / 16) emptyGroup }
        ((List.range d.num_groups).flatMap
          (fun g => (List.range 16).map (fun i => (g, i)))) with
    | some d1 =>
      have hstep : simple_resize d ms true = (d1, true) := by
        unfold simple_resize
        rw [if_pos rfl]
        simp only [hre]
      rw [hstep]
      refine ⟨fun h => Bool.noConfusion h, fun _ => ?_⟩
      obtain ⟨g1, g2, g3, g4⟩ := simpleReinsert_props d.groups _ _ d1 hre hbaseP
      refine ⟨?_, ?_, g2, ?_, ?_, g4⟩
      · show d1.capacity = d1.num_groups * 16
        rw [g1, g3]
        show calcNewCapacity 16 ms = calcNewCapacity 16 ms / 16 * 16
        omega
      · show 1 ≤ d1.num_groups
        rw [g3]
        show 1 ≤ calcNewCapacity 16 ms / 16
        omega
      · show ms ≤ d1.capacity
        rw [g1]
        exact hms
      · show 16 ≤ d1.capacity
        rw [g1]
        exact hstart
    | none =>
      have hstep : simple_resize d ms true =
          ({ d with capacity := d.num_groups * 16 }, false) := by
        unfold simple_resize
        rw [if_pos rfl]
        simp only [hre]
      rw [hstep]
      exact ⟨fun _ => ⟨hcapg.symm, rfl, rfl, rfl⟩, fun h => Bool.noConfusion h⟩

/-- The memory-check / placement phase of `swissdict_ass_sub`, abstracted
over the table `d1` and success flag `ok` the resize phase produced. -/
theorem insertPhase_bound (d1 : SimpleDict) (ok : Bool) (k v hash u0 : Nat)
    (hcap : d1.capacity = d1.num_groups * 16) (hng : 1 ≤ d1.num_groups)
    (hused : d1.used = u0)
    (hP : ∀ x ∈ d1.groups, ∀ j, x.control.getD j 0 ≠ SWISS_DELETED)
    (hbound : ok = false → 8 * u0 ≤ 7 * d1.capacity)
    (hsucc : ok = true → 8 * (u0 + 1) ≤ 7 * d1.capacity ∧ 8 * u0 ≤ 7 * d1.capacity) :
    (if ok = false then (d1, SimpleSetRes.memError)
     else match simple_insert_into_table d1 k v hash with
       | some d2 => ({ d2 with used := d2.used + 1, version := d2.version + 1 },
          SimpleSetRes.ok)
       | none => (d1, SimpleSetRes.noSpaceError)).1.capacity =
      (if ok = false then (d1, SimpleSetRes.memError)
       else match simple_insert_into_table d1 k v hash with
         | some d2 => ({ d2 with used := d2.used + 1, version := d2.version + 1 },
            SimpleSetRes.ok)
         | none => (d1, SimpleSetRes.noSpaceError)).1.num_groups * 16 ∧
    1 ≤ (if ok = false then (d1, SimpleSetRes.memError)
       else match simple_insert_into_table d1 k v hash with
         | some d2 => ({ d2 with used := d2.used + 1, version := d2.version + 1 },
            SimpleSetRes.ok)
         | none => (d1, SimpleSetRes.noSpaceError)).1.num_groups ∧
    8 * (if ok = false then (d1, SimpleSetRes.memError)
       else match simple_insert_into_table d1 k v hash with
         | some d2 => ({ d2 with used := d2.used + 1, version := d2.version + 1 },
            SimpleSetRes.ok)
         | none => (d1, SimpleSetRes.noSpaceError)).1.used ≤
      7 * (if ok = false then (d1, SimpleSetRes.memError)
       else match simple_insert_into_table d1 k v hash with
         | some d2 => ({ d2 with used := d2.used + 1, version := d2.version + 1 },
            SimpleSetRes.ok)
         | none => (d1, SimpleSetRes.noSpaceError)).1.capacity ∧
    (∀ x ∈ (if ok = false then (d1, SimpleSetRes.memError)
       else match simple_insert_into_table d1 k v hash with
         | some d2 => ({ d2 with used := d2.used + 1, version := d2.version + 1 },
            SimpleSetRes.ok)
         | none => (d1, SimpleSetRes.noSpaceError)).1.groups, ∀ j,
      x.control.getD j 0 ≠ SWISS_DELETED) := by
  cases ok with
  | false =>
    rw [if_pos rfl]
    have hb := hbound rfl
    refine ⟨hcap, hng, ?_, hP⟩
    show 8 * d1.used ≤ 7 * d1.capacity
    omega
  | true =>
    rw [if_neg (by decide)]
    obtain ⟨hs1, hs2⟩ := hsucc rfl
    cases hins : simple_insert_into_table d1 k v hash with
    | none =>
      refine ⟨hcap, hng, ?_, hP⟩
      show 8 * d1.used ≤ 7 * d1.capacity
      omega
    | some d2 =>
      obtain ⟨f1, f2, f3⟩ := simple_insert_fields d1 k v hash d2 hins
      have hP2 := simple_insert_noTomb d1 k v hash d2 hP hins
      refine ⟨?_, ?_, ?_, hP2⟩
      · show d2.capacity = d2.num_groups * 16
        omega
      · show 1 ≤ d2.num_groups
        omega
      · show 8 * (d2.used + 1) ≤ 7 * d2.capacity
        omega

/-- One `swissdict_ass_sub` call preserves the simple variant's shape
and load-factor invariant. -/
theorem ass_sub_state (hf : Nat → Nat) (a : Bool) (d : SimpleDict) (k : Nat)
    (v : Option Nat)
    (hcapg : d.capacity = d.num_groups * 16) (hng : 1 ≤ d.num_groups)
    (hload : 8 * d.used ≤ 7 * d.capacity)
    (hP : ∀ x ∈ d.groups, ∀ j, x.control.getD j 0 ≠ SWISS_DELETED) :
    (swissdict_ass_sub hf d k v a).1.capacity =
      (swissdict_ass_sub hf d k v a).1.num_groups * 16 ∧
    1 ≤ (swissdict_ass_sub hf d k v a).1.num_groups ∧
    8 * (swissdict_ass_sub hf d k v a).1.used ≤
      7 * (swissdict_ass_sub hf d k v a).1.capacity ∧
    (∀ x ∈ (swissdict_ass_sub hf d k v a).1.groups, ∀ j,
      x.control.getD j 0 ≠ SWISS_DELETED) := by
  cases v with
  | none => exact ⟨hcapg, hng, hload, hP⟩
  | some v =>
    cases hex : simpleFindExisting d k (hf k) ((hf k >>> 8) % 128)
        (List.range d.num_groups) with
    | some gj =>
      obtain ⟨g, jx⟩ := gj
      have hstep : swissdict_ass_sub hf d k (some v) a =
          ({ d with
            groups := d.groups.set g
              { d.groups.getD g default with
                values := (d.groups.getD g default).values.set jx v },
            version := d.version + 1 }, SimpleSetRes.ok) := by
        simp only [swissdict_ass_sub, hex]
      rw [hstep]
      refine ⟨hcapg, hng, hload, ?_⟩
      intro x hx j
      cases List.mem_or_eq_of_mem_set hx with
      | inl hmem => exact hP x hmem j
      | inr heq =>
        rw [heq]
        exact noTomb_getD d.groups g hP j
    | none =>
      have hstep : swissdict_ass_sub hf d k (some v) a =
          (if (if (d.used + 1) * 8 > d.capacity * 7
                then simple_resize d (d.used * 2) a else (d, true)).2 = false
           then ((if (d.used + 1) * 8 > d.capacity * 7
                then simple_resize d (d.used * 2) a else (d, true)).1,
             SimpleSetRes.memError)
           else match simple_insert_into_table
                  (if (d.used + 1) * 8 > d.capacity * 7
                   then simple_resize d (d.used * 2) a else (d, true)).1 k v (hf k) with
             | some d2 => ({ d2 with used := d2.used + 1, version := d2.version + 1 },
                SimpleSetRes.ok)
             | none => ((if (d.used + 1) * 8 > d.capacity * 7
                   then simple_resize d (d.used * 2) a else (d, true)).1,
                SimpleSetRes.noSpaceError)) := by
        simp only [swissdict_ass_sub, hex]
      rw [hstep]
      by_cases htr : (d.used + 1) * 8 > d.capacity * 7
      · rw [if_pos htr]
        obtain ⟨hfail, hsucc⟩ := simple_resize_state d (d.used * 2) a hcapg hP
        refine insertPhase_bound (simple_resize d (d.used * 2) a).1
          (simple_resize d (d.used * 2) a).2 k v (hf k) d.used ?_ ?_ ?_ ?_ ?_ ?_
        · cases hb : (simple_resize d (d.used * 2) a).2 with
          | false =>
            obtain ⟨hc, hu, hn, _⟩ := hfail hb
            rw [hc, hn]
            exact hcapg
          | true => exact (hsucc hb).1
        · cases hb : (simple_resize d (d.used * 2) a).2 with
          | false =>
            obtain ⟨_, _, hn, _⟩ := hfail hb
            rw [hn]
            exact hng
          | true => exact (hsucc hb).2.1
        · cases hb : (simple_resize d (d.used * 2) a).2 with
          | false => exact (hfail hb).2.1
          | true => exact (hsucc hb).2.2.1
        · cases hb : (simple_resize d (d.used * 2) a).2 with
          | false =>
            obtain ⟨_, _, _, hg⟩ := hfail hb
            rw [hg]
            exact hP
          | true => exact (hsucc hb).2.2.2.2.2
        · intro hb
          obtain ⟨hc, _, _, _⟩ := hfail hb
          rw [hc]
          exact hload
        · intro hb
          obtain ⟨_, _, _, hms, h16, _⟩ := hsucc hb
          omega
      · rw [if_neg htr]
        refine insertPhase_bound d true k v (hf k) d.used hcapg hng rfl hP
          (fun h => Bool.noConfusion h) (fun _ => ⟨by omega, hload⟩)

/-- Every state reached by a run of operations against the simple
variant keeps the shape and load-factor invariant. -/
theorem simpleRunGo_bound (hf : Nat → Nat) (alloc : Nat → Bool)
    (ops : List SimpleOp) :
    ∀ (n : Nat) (d : SimpleDict), d.capacity = d.num_groups * 16 →
      1 ≤ d.num_groups → 8 * d.used ≤ 7 * d.capacity →
      (∀ x ∈ d.groups, ∀ j, x.control.getD j 0 ≠ SWISS_DELETED) →
      (simpleRunGo hf alloc n d ops).capacity =
        (simpleRunGo hf alloc n d ops).num_groups * 16 ∧
      8 * (simpleRunGo hf alloc n d ops).used ≤
        7 * (simpleRunGo hf alloc n d ops).capacity ∧
      (∀ x ∈ (simpleRunGo hf alloc n d ops).groups, ∀ j,
        x.control.getD j 0 ≠ SWISS_DELETED) := by
  induction ops with
  | nil =>
    intro n d h1 _ h3 h4
    exact ⟨h1, h3, h4⟩
  | cons op rest ih =>
    intro n d h1 h2 h3 h4
    rw [show simpleRunGo hf alloc n d (op :: rest) =
      simpleRunGo hf alloc (n + 1) (simpleStepOp hf (alloc n) d op) rest from rfl]
    cases op with
    | set k v =>
      obtain ⟨b1, b2, b3, b4⟩ := ass_sub_state hf (alloc n) d k (some v) h1 h2 h3 h4
      exact ih (n + 1) _ b1 b2 b3 b4
    | del k =>
      obtain ⟨b1, b2, b3, b4⟩ := ass_sub_state hf (alloc n) d k none h1 h2 h3 h4
      exact ih (n + 1) _ b1 b2 b3 b4

/-- C8 (amended): in the simple SIMD variant (`swissdictobject_simple.c`)
the load-factor bound holds in every state reachable between operations:
`8 * used ≤ 7 * capacity` (equivalently `used ≤ capacity * 7 / 8`), and
no control byte is ever a tombstone (`DELETED` is never written, since
deletion is rejected), so `used + tombstones ≤ capacity * 7 / 8` as the
claim states — for this variant.  Growth is invoked *before* placement
whenever `(used + 1) * 8 > capacity * 7`.  (The ordered dict violates
the bound: see the counterexample.) -/
theorem c8_amended_simple_load_factor (hf : Nat → Nat) (alloc : Nat → Bool)
    (ops : List SimpleOp) :
    8 * (simpleRun hf alloc ops).used ≤ 7 * (simpleRun hf alloc ops).capacity ∧
    (simpleRun hf alloc ops).used ≤ (simpleRun hf alloc ops).capacity * 7 / 8 ∧
    (∀ x ∈ (simpleRun hf alloc ops).groups, ∀ j,
      x.control.getD j 0 ≠ SWISS_DELETED) := by
  obtain ⟨h1, h2, h3⟩ := simpleRunGo_bound hf alloc ops 0 simple_new rfl
    (by decide) (by decide) (by
      intro x hx j
      rw [List.mem_singleton.mp hx]
      exact emptyGroup_noTomb j)
  have hrr : simpleRun hf alloc ops = simpleRunGo hf alloc 0 simple_new ops := rfl
  rw [hrr]
  exact ⟨h2, by omega, h3⟩

end SwissVerify
